import Mathlib

/-!
Shallow embedding of `src/stitcher.py` (an image-stitching library).

Conventions used throughout:
* pixel coordinates are rationals (`ℚ`); the Python code uses numpy floats,
  whose exact real arithmetic we model with `ℚ`;
* 8-bit pixel channel values are naturals (`ℕ`), saturating at 255 where the
  Python code uses `cv2.add` on `uint8` buffers;
* 3×3 homography matrices are the explicit structure `M3` mirroring the numpy
  `3×3` arrays that the code manipulates with `.dot`;
* fallible Python code (raised exceptions) is modelled with `Except StitchError`;
* the external OpenCV/scipy primitives that the repository calls are modelled
  from their documented behaviour: `cv2.findHomography` is an oracle parameter
  (`Est`), `cv2.perspectiveTransform` is exact projective application,
  `scipy.sparse.csgraph` routines are reimplemented as executable functions;
* unbounded Python `while` loops are modelled with a fuel parameter that is,
  by the theorems below, large enough on every input the code actually meets.
-/

namespace Stitcher

/-- Errors raised by the Python code, in structured form.  `nameError` is the
`NameError` raised by `update_defaults`; `valueErrorNoImages` is the
`ValueError` raised by `_edge_matrix` on an empty session;
`valueErrorMaxEmpty` is the `ValueError` that Python's builtin `max` raises on
an empty sequence (reached by `_edge_matrix` when the match store is empty);
`unstitchableImages` carries the image names of the `ValueError` raised by
`validate`; `keyErrorMatch` is the `KeyError` raised by `_get_match`;
`homographyNoInliers` is the `ValueError` raised by `_find_homography` when
RANSAC reports zero inliers; `attributeErrorNoSetter` is the
`AttributeError` raised by `setattr` on a property without a setter.
`fuelExhausted` and `emptyCorners` are artifacts of the fuelled embedding and
are unreachable on the inputs considered here. -/
inductive StitchError where
  | nameError (cls attr : String)
  | valueErrorNoImages
  | valueErrorMaxEmpty
  | unstitchableImages (names : List String)
  | keyErrorMatch (pair : ℕ × ℕ)
  | homographyNoInliers
  | attributeErrorNoSetter (attr : String)
  | fuelExhausted
  | emptyCorners
  deriving DecidableEq, Repr

/-- A 3×3 rational matrix, written out field by field so that every operation
is a plain computation (mirrors the numpy 3×3 arrays of the source). -/
structure M3 where
  a00 : ℚ
  a01 : ℚ
  a02 : ℚ
  a10 : ℚ
  a11 : ℚ
  a12 : ℚ
  a20 : ℚ
  a21 : ℚ
  a22 : ℚ
  deriving DecidableEq, Repr

/-- Matrix product, as computed by `numpy.dot` on 3×3 arrays. -/
def M3.mul (A B : M3) : M3 where
  a00 := A.a00 * B.a00 + A.a01 * B.a10 + A.a02 * B.a20
  a01 := A.a00 * B.a01 + A.a01 * B.a11 + A.a02 * B.a21
  a02 := A.a00 * B.a02 + A.a01 * B.a12 + A.a02 * B.a22
  a10 := A.a10 * B.a00 + A.a11 * B.a10 + A.a12 * B.a20
  a11 := A.a10 * B.a01 + A.a11 * B.a11 + A.a12 * B.a21
  a12 := A.a10 * B.a02 + A.a11 * B.a12 + A.a12 * B.a22
  a20 := A.a20 * B.a00 + A.a21 * B.a10 + A.a22 * B.a20
  a21 := A.a20 * B.a01 + A.a21 * B.a11 + A.a22 * B.a21
  a22 := A.a20 * B.a02 + A.a21 * B.a12 + A.a22 * B.a22

/-- Identity matrix `np.identity(3)`. -/
def m3id : M3 := ⟨1, 0, 0, 0, 1, 0, 0, 0, 1⟩

/-- Projective application of a homography to a point, the documented
behaviour of `cv2.perspectiveTransform` on a single point (division in `ℚ`,
with the Lean convention `x / 0 = 0` standing in for the degenerate case). -/
def applyH (H : M3) (p : ℚ × ℚ) : ℚ × ℚ :=
  let w := H.a20 * p.1 + H.a21 * p.2 + H.a22
  ((H.a00 * p.1 + H.a01 * p.2 + H.a02) / w,
   (H.a10 * p.1 + H.a11 * p.2 + H.a12) / w)

/-! ### Pixel-level compositing (`paste_image`, lines 62–75) -/

/-- Saturating 8-bit addition, the per-channel behaviour of `cv2.add` on
`uint8` buffers. -/
def cv2add (a b : ℕ) : ℕ := min 255 (a + b)

/-- Behaviour of `cv2.bitwise_and(dest, dest, mask=mask)` at one pixel: the
destination value is kept where the mask is nonzero and zeroed where the mask
is zero. -/
def maskKeep (d m : ℕ) : ℕ := if m = 0 then 0 else d

/-- One pixel channel of `paste_image`: the mask is `255 - alpha` (uint8), the
destination is masked by it and the source value is added with saturation. -/
def pastePixel (d s a : ℕ) : ℕ := cv2add (maskKeep d (255 - a)) s

/-- The function `paste_image(base, img, shift)` of the source, at the level of
pixel functions.  `base` and `img` map `(row, column, channel)` to an 8-bit
value; channel 3 of `img` is its alpha channel; `shift = (x, y)` is the paste
position, and the pasted region is `img`'s `h × w` rectangle.  Outside that
region the canvas is unchanged (the source writes only the slice). -/
def paste_image (base img : ℕ → ℕ → Fin 4 → ℕ) (h w : ℕ) (shift : ℕ × ℕ) :
    ℕ → ℕ → Fin 4 → ℕ :=
  fun y x ch =>
    if shift.2 ≤ y ∧ y < shift.2 + h ∧ shift.1 ≤ x ∧ x < shift.1 + w then
      pastePixel (base y x ch) (img (y - shift.2) (x - shift.1) ch)
        (img (y - shift.2) (x - shift.1) 3)
    else base y x ch

/-- Modelled from the spec sentence for the compositing step: destination
pixels are scaled by `(255 − source alpha)` (with the usual 8-bit
normalisation of source-over compositing) and added to the source pixel
values.  This definition follows the words of the spec, for comparison with
`paste_image`, which follows the code. -/
def specScaledBlendPixel (d s a : ℕ) : ℕ := min 255 (d * (255 - a) / 255 + s)

/-! ### Geometry helpers (`image_corners`, `fitting_rectangle`) -/

/-- The corner list of `image_corners(arr)` for an array of shape `(h, w)`:
`[(0,0), (0,w), (h,w), (h,0)]`, in the deliberate row/column ordering of the
source. -/
def image_corners (h w : ℕ) : List (ℚ × ℚ) :=
  [(0, 0), (0, (w : ℚ)), ((h : ℚ), (w : ℚ)), ((h : ℚ), 0)]

/-- The function `fitting_rectangle(*points)`: returns `((left, top),
(width, height))` with `left`/`top` the floors of the coordinate minima and
`width`/`height` the ceilings of the extents measured from those floors.
Python would overflow on an empty argument list (the minima stay infinite),
which the embedding records as `none`. -/
def fitting_rectangle (points : List (ℚ × ℚ)) :
    Option ((ℤ × ℤ) × (ℤ × ℤ)) :=
  match points with
  | [] => none
  | p :: ps =>
    let left := (ps.map Prod.fst).foldl min p.1
    let right := (ps.map Prod.fst).foldl max p.1
    let top := (ps.map Prod.snd).foldl min p.2
    let bottom := (ps.map Prod.snd).foldl max p.2
    let lf : ℤ := ⌊left⌋
    let tf : ℤ := ⌊top⌋
    some ((lf, tf), (⌈right - (lf : ℚ)⌉, ⌈bottom - (tf : ℚ)⌉))

/-! ### Data model (`_StitchImage`, `ImageStitcher` state) -/

/-- One keypoint match produced by the external matcher (`cv2.DMatch`): an
index into the query image keypoints and one into the train image
keypoints. -/
structure DMatch where
  queryIdx : ℕ
  trainIdx : ℕ
  deriving DecidableEq, Repr

/-- A `_StitchImage`: its pixel buffer is abstracted to its shape (height and
width), together with its name and its detected keypoint coordinates. -/
structure StitchImage where
  height : ℕ
  width : ℕ
  name : String
  kp : List (ℚ × ℚ)
  deriving DecidableEq, Repr, Inhabited

/-- The per-session state of `ImageStitcher` that the stitching pipeline
reads: the image list, the match store `_matches` (an insertion-ordered
dictionary keyed by an index pair, holding the accepted match list), and the
`_center` cache.  The `_current_edge_matrix` cache is not modelled: it only
memoizes `_edge_matrix`, which is recomputed here on each use. -/
structure Session where
  images : List StitchImage
  matchStore : List ((ℕ × ℕ) × List DMatch)
  centerCache : Option ℕ
  deriving DecidableEq, Repr

/-- Oracle type for the external `cv2.findHomography`: given source points and
destination points it returns an estimated matrix and the inlier count
(`status.sum()`). -/
abbrev Est := List (ℚ × ℚ) → List (ℚ × ℚ) → M3 × ℕ

/-! ### Configuration (`update_defaults`, `ImageStitcher.__init__`) -/

/-- Values storable in the attribute dictionary of the Python object; the
constructor only needs their identity, so a small closed universe suffices.
`vdict`/`vlist` carry the container's size (the only aspect of the value the
property getters inspect, via `len(...)` and emptiness of `.values()`);
`method` stands for the callable class attributes visible to `hasattr`. -/
inductive PyVal where
  | vnat (n : ℕ)
  | vrat (q : ℚ)
  | vbool (b : Bool)
  | vnone
  | vdict (size : ℕ)
  | vlist (size : ℕ)
  | method
  deriving DecidableEq, Repr

/-- An attribute store: insertion-ordered name/value pairs, modelling the
Python object's instance attribute dictionary.  The class-level properties
`center` and `_edge_matrix` are data descriptors and never live in this
dictionary; attribute access on those two names is modelled by name in
`probeAttr`/`setAttrEx` below. -/
abbrev AttrObj := List (String × PyVal)

/-- The `setattr` of an existing plain attribute: replace its value in place. -/
def setAttr (obj : AttrObj) (k : String) (v : PyVal) : AttrObj :=
  obj.map (fun p => if p.1 = k then (k, v) else p)

/-- Whether the name is present in the instance attribute dictionary. -/
def hasAttr (obj : AttrObj) (k : String) : Bool :=
  (obj.map Prod.fst).contains k

/-- The control flow of the `_edge_matrix` property getter evaluated during
construction (the `_current_edge_matrix` cache is `None` until the getter
itself fills it): `len(self._images) == 0` raises
`ValueError('Must have at least one image!')`; otherwise
`max(len(v) for v in self._matches.values())` raises `ValueError` on an empty
match store; otherwise a matrix is built and returned.  Container emptiness is
read off the sizes carried by `vlist`/`vdict`; a `_images`/`_matches` slot
rebound by an earlier keyword to a non-container value is treated as a
non-empty container. -/
def probeEdgeOnInit (obj : AttrObj) : Except StitchError Bool :=
  match obj.find? (fun p => decide (p.1 = "_images")) with
  | some pv =>
    match pv.2 with
    | .vlist 0 => .error .valueErrorNoImages
    | _ =>
      match obj.find? (fun p => decide (p.1 = "_matches")) with
      | some pv2 =>
        match pv2.2 with
        | .vdict 0 => .error .valueErrorMaxEmpty
        | _ => .ok true
      | none => .ok true
  | none => .ok false

/-- The probe `hasattr(obj, k)` performed by `update_defaults`.  In Python 3
`hasattr` swallows only `AttributeError`: for a plain name it reduces to a
dictionary lookup, but for the properties `center` and `_edge_matrix` it runs
the getter, and the getter's `ValueError` propagates out of `hasattr`.  The
`center` getter returns the cached `_center` when it is not `None` and
otherwise recomputes through `_find_center`, whose only failure point is the
`_edge_matrix` getter (given a successful `_edge_matrix`, `shortest_path` and
`argmin` succeed).  A successful `center` probe also caches the computed value
in `_center`, but `update_defaults` immediately overwrites that slot through
the `center` setter, so the pure probe is faithful for the constructor's
probe-then-set sequence. -/
def probeAttr (obj : AttrObj) (k : String) : Except StitchError Bool :=
  if k = "center" then
    match obj.find? (fun p => decide (p.1 = "_center")) with
    | some pv =>
      match pv.2 with
      | .vnone => probeEdgeOnInit obj
      | _ => .ok true
    | none => .ok false
  else if k = "_edge_matrix" then probeEdgeOnInit obj
  else .ok (hasAttr obj k)

/-- The `setattr(obj, k, v)` performed by `update_defaults` after a successful
probe: assigning `center` runs its property setter, which stores the value in
`_center`; `_edge_matrix` is a property without a setter, so `setattr` raises
`AttributeError`; any other name is a plain in-place assignment. -/
def setAttrEx (obj : AttrObj) (k : String) (v : PyVal) :
    Except StitchError AttrObj :=
  if k = "center" then .ok (setAttr obj "_center" v)
  else if k = "_edge_matrix" then .error (.attributeErrorNoSetter k)
  else .ok (setAttr obj k v)

/-- The function `update_defaults(obj, kwargs)`: iterate the keyword
dictionary in insertion order; a probe that raises propagates its error, an
unknown name raises `NameError` naming the class and the offending key, and a
known name is assigned (which may itself raise, per `setAttrEx`). -/
def update_defaults (cls : String) (obj : AttrObj) :
    List (String × PyVal) → Except StitchError AttrObj
  | [] => .ok obj
  | (k, v) :: rest =>
    match probeAttr obj k with
    | .error e => .error e
    | .ok false => .error (.nameError cls k)
    | .ok true =>
      match setAttrEx obj k v with
      | .error e => .error e
      | .ok obj2 => update_defaults cls obj2 rest

/-- The attributes of a fresh `ImageStitcher` at the moment `update_defaults`
runs inside `__init__`: the instance attributes just assigned (`_matches` the
empty dictionary, `_images` the empty list, `_center` and
`_current_edge_matrix` both `None`), plus the class-level methods.  The
properties `center` and `_edge_matrix` are handled by name in `probeAttr` and
`setAttrEx`, matching their descriptor semantics. -/
def initialAttrs : AttrObj :=
  [("_matches", .vdict 0), ("_images", .vlist 0),
   ("ratio_threshold", .vrat (7 / 10)),
   ("matches_threshold", .vnat 10), ("_center", .vnone),
   ("_current_edge_matrix", .vnone), ("debug", .vbool false),
   ("add_image", .method), ("stitch", .method), ("validate", .method),
   ("_calculate_new_corners", .method), ("_calculate_bounds", .method),
   ("_calculate_draw_order", .method), ("_calculate_total_homographies", .method),
   ("_get_match", .method), ("_find_homography", .method),
   ("_find_center", .method), ("_match_features", .method)]

/-- The constructor `ImageStitcher(**kwargs)`: set the defaults, then apply
`update_defaults`; any error it raises propagates, so no object is
produced. -/
def initStitcher (kwargs : List (String × PyVal)) : Except StitchError AttrObj :=
  update_defaults "ImageStitcher" initialAttrs kwargs

/-! ### The match graph (`_edge_matrix`) -/

/-- The list of stored correspondence counts, `[len(v) for v in
self._matches.values()]` in store order. -/
def matchCounts (s : Session) : List ℕ :=
  s.matchStore.map (fun kv => kv.2.length)

/-- The largest stored correspondence count (defined for a nonempty head/tail
split, as used below). -/
def maxCount (c0 : ℕ) (cs : List ℕ) : ℕ := cs.foldl max c0

/-- The property `_edge_matrix`: fails on an empty session; otherwise computes
`base = max(count) + 1` — which is Python's `max` over the match store and
raises on an empty store — and returns one weighted edge `(pair, base −
count)` per stored match record, in store order (the csr matrix built from
exactly these entries). -/
def edge_matrix (s : Session) : Except StitchError (List ((ℕ × ℕ) × ℕ)) :=
  if s.images.length = 0 then .error .valueErrorNoImages
  else
    match matchCounts s with
    | [] => .error .valueErrorMaxEmpty
    | c0 :: cs =>
      let base := maxCount c0 cs + 1
      .ok (s.matchStore.map (fun kv => (kv.1, base - kv.2.length)))

/-- Symmetric weight lookup in the edge list (the csr matrix stores each pair
once; every csgraph call passes `directed=False`). -/
def edgeWeight (es : List ((ℕ × ℕ) × ℕ)) (i j : ℕ) : Option ℕ :=
  match es.find? (fun kv => decide (kv.1 = (i, j) ∨ kv.1 = (j, i))) with
  | some kv => some kv.2
  | none => none

/-! ### Connected components and `validate`
The scipy routine `csgraph.connected_components(..., directed=False)` is
modelled as a scan over the nodes in increasing order, flood-filling each
still-unlabelled node with the next fresh label, so labels are assigned in
discovery order (label 0 to the component of node 0, and so on) — exactly the
labelling scipy documents. -/

/-- Flood fill: label every node reachable from the work list with `lab`,
skipping already-labelled nodes.  Fuel bounds the number of steps; the callers
below always pass enough. -/
def floodFill (adj : ℕ → ℕ → Bool) (n lab : ℕ) :
    ℕ → List ℕ → List (Option ℕ) → List (Option ℕ)
  | 0, _, labels => labels
  | _ + 1, [], labels => labels
  | f + 1, x :: stack, labels =>
    if (labels.getD x none).isSome then floodFill adj n lab f stack labels
    else
      floodFill adj n lab f
        (((List.range n).filter (fun j => adj x j)) ++ stack)
        (labels.set x (some lab))

/-- Scan all nodes in increasing order, starting a fresh component at every
unlabelled node. -/
def compScan (adj : ℕ → ℕ → Bool) (n : ℕ) :
    List ℕ → List (Option ℕ) → ℕ → List (Option ℕ) × ℕ
  | [], labels, lab => (labels, lab)
  | i :: rest, labels, lab =>
    if (labels.getD i none).isSome then compScan adj n rest labels lab
    else
      compScan adj n rest
        (floodFill adj n lab (n * n + n + 1) [i] labels) (lab + 1)

/-- The modelled `csgraph.connected_components`: the number of components and
the per-node component labels, in discovery order. -/
def connected_components (adj : ℕ → ℕ → Bool) (n : ℕ) : ℕ × List ℕ :=
  let (labels, cc) :=
    compScan adj n (List.range n) (List.replicate n none) 0
  (cc, labels.map (fun o => o.getD 0))

/-- Occurrence counts `np.bincount(groups)` for label values `0..size-1` (all
labels below the component count occur, so the bincount length is the
component count). -/
def bincount (groups : List ℕ) (size : ℕ) : List ℕ :=
  (List.range size).map (fun v => groups.count v)

/-- First index of a maximal element, the behaviour of `np.argmax` (`0` on the
empty list, where numpy raises). -/
def argmaxFirst : List ℕ → ℕ
  | [] => 0
  | [_] => 0
  | x :: y :: rest =>
    if rest.foldl max y ≤ x then 0 else argmaxFirst (y :: rest) + 1

/-- The component decomposition `connected_components(self._edge_matrix,
directed=False)` of the match graph: component count and per-node labels. -/
def componentsOf (es : List ((ℕ × ℕ) × ℕ)) (n : ℕ) : ℕ × List ℕ :=
  connected_components (fun i j => (edgeWeight es i j).isSome) n

/-- The label `np.bincount(groups).argmax()` of the most common component. -/
def mostCommonLabel (es : List ((ℕ × ℕ) × ℕ)) (n : ℕ) : ℕ :=
  argmaxFirst (bincount (componentsOf es n).2 (componentsOf es n).1)

/-- The method `validate()`: decompose the match graph into connected
components; with more than one component, raise an error naming every image
whose component is not the most common one (`np.bincount(groups).argmax()`). -/
def validate (names : List String) (n : ℕ) (es : List ((ℕ × ℕ) × ℕ)) :
    Except StitchError Unit :=
  let r := componentsOf es n
  if r.1 = 1 then .ok ()
  else
    let mostCommon := argmaxFirst (bincount r.2 r.1)
    .error (.unstitchableImages
      (((List.range n).filter (fun i => decide (r.2.getD i 0 ≠ mostCommon))).map
        (fun i => names.getD i "")))

/-! ### Shortest paths, the graph center (`_find_center`, `center`) -/

/-- Distances with unreachability, `∞` being `⊤`. -/
abbrev Dist := WithTop ℕ

/-- Initial all-pairs distance matrix: `0` on the diagonal, the edge weight
where an edge is stored (in either orientation), `∞` otherwise. -/
def spInit (es : List ((ℕ × ℕ) × ℕ)) (n : ℕ) : List (List Dist) :=
  (List.range n).map (fun i =>
    (List.range n).map (fun j =>
      if i = j then (0 : Dist)
      else match edgeWeight es i j with
           | some w => ((w : ℕ) : Dist)
           | none => ⊤))

/-- One Floyd–Warshall relaxation round through intermediate node `k`. -/
def fwStep (n k : ℕ) (mat : List (List Dist)) : List (List Dist) :=
  (List.range n).map (fun i =>
    (List.range n).map (fun j =>
      min ((mat.getD i []).getD j ⊤)
        (((mat.getD i []).getD k ⊤) + ((mat.getD k []).getD j ⊤))))

/-- The modelled `csgraph.shortest_path(..., directed=False)`: all-pairs
shortest-path distances by Floyd–Warshall. -/
def spMat (es : List ((ℕ × ℕ) × ℕ)) (n : ℕ) : List (List Dist) :=
  (List.range n).foldl (fun m k => fwStep n k m) (spInit es n)

/-- Row maximum `shortest_path.max(axis=1)` for node `i` — its eccentricity
(the diagonal contributes `0` and never changes the maximum). -/
def ecc (es : List ((ℕ × ℕ) × ℕ)) (n i : ℕ) : Dist :=
  ((spMat es n).getD i []).foldl max 0

/-- First index of a minimal element, the behaviour of `np.argmin` (`0` on the
empty list, where numpy raises). -/
def argminFirst {α : Type} [LinearOrder α] : List α → ℕ
  | [] => 0
  | [_] => 0
  | x :: y :: rest =>
    if x ≤ rest.foldl min y then 0 else argminFirst (y :: rest) + 1

/-- The method `_find_center()`: the node whose row maximum of the all-pairs
shortest-path matrix is smallest, ties resolved by `np.argmin` to the lowest
index. -/
def find_center (es : List ((ℕ × ℕ) × ℕ)) (n : ℕ) : ℕ :=
  argminFirst ((List.range n).map (ecc es n))

/-- The `center` property getter: return the cached value if present,
otherwise compute `_find_center` on the current edge matrix and cache it. -/
def centerGet (s : Session) : Except StitchError (ℕ × Session) :=
  match s.centerCache with
  | some c => .ok (c, s)
  | none =>
    match edge_matrix s with
    | .error e => .error e
    | .ok es =>
      let c := find_center es s.images.length
      .ok (c, { s with centerCache := some c })

/-! ### Dijkstra predecessors (`csgraph.dijkstra(..., return_predecessors=True)`) -/

/-- First unvisited node of minimal tentative distance, if any. -/
def pickMinUnvisited (n : ℕ) (visited : List Bool) (dist : List Dist) :
    Option ℕ :=
  (List.range n).foldl
    (fun acc v =>
      if visited.getD v true then acc
      else
        match acc with
        | none => some v
        | some b => if dist.getD v ⊤ < dist.getD b ⊤ then some v else acc)
    none

/-- Relax all edges out of `u`, updating distances and predecessors. -/
def relaxFrom (es : List ((ℕ × ℕ) × ℕ)) (n u : ℕ)
    (dp : List Dist × List ℤ) : List Dist × List ℤ :=
  (List.range n).foldl
    (fun dp v =>
      match edgeWeight es u v with
      | none => dp
      | some w =>
        if dp.1.getD u ⊤ + ((w : ℕ) : Dist) < dp.1.getD v ⊤ then
          (dp.1.set v (dp.1.getD u ⊤ + ((w : ℕ) : Dist)), dp.2.set v (u : ℤ))
        else dp)
    dp

/-- Main Dijkstra loop; one node is finalised per round. -/
def dijkstraLoop (es : List ((ℕ × ℕ) × ℕ)) (n : ℕ) :
    ℕ → List Bool → List Dist × List ℤ → List Dist × List ℤ
  | 0, _, dp => dp
  | f + 1, visited, dp =>
    match pickMinUnvisited n visited dp.1 with
    | none => dp
    | some u => dijkstraLoop es n f (visited.set u true) (relaxFrom es n u dp)

/-- The predecessor array of `csgraph.dijkstra(graph, directed=False,
indices=center, return_predecessors=True)`: `-9999` marks the source and
unreachable nodes. -/
def dijkstraParents (es : List ((ℕ × ℕ) × ℕ)) (n src : ℕ) : List ℤ :=
  (dijkstraLoop es n n (List.replicate n false)
    ((List.replicate n (⊤ : Dist)).set src 0,
     List.replicate n (-9999 : ℤ))).2

/-! ### Draw order (`_calculate_draw_order`) -/

/-- Neighbour list, in increasing node order, of the spanning tree that
`csgraph.reconstruct_path` rebuilds from the predecessor array: node `a` and
node `b` are adjacent when one is the recorded predecessor of the other
(negative entries mark roots and yield no edge). -/
def treeAdj (parents : List ℤ) (n x : ℕ) : List ℕ :=
  (List.range n).filter (fun j =>
    decide ((0 ≤ parents.getD j 0 ∧ (parents.getD j 0).toNat = x) ∨
            (0 ≤ parents.getD x 0 ∧ (parents.getD x 0).toNat = j)))

/-- Depth-first preorder from a work stack, the modelled
`csgraph.depth_first_order`: pop a node, emit it if new, then push its
neighbours in order. -/
def dfsOrder (adj : ℕ → List ℕ) : ℕ → List ℕ → List ℕ → List ℕ
  | 0, _, _ => []
  | _ + 1, _, [] => []
  | f + 1, visited, x :: stack =>
    if x ∈ visited then dfsOrder adj f visited stack
    else x :: dfsOrder adj f (x :: visited) (adj x ++ stack)

/-- The method `_calculate_draw_order(parents)`: depth-first order of the
reconstructed spanning tree from the center, reversed (`[::-1]`). -/
def calculate_draw_order (parents : List ℤ) (c n : ℕ) : List ℕ :=
  (dfsOrder (treeAdj parents n) ((n + 1) * (n + 1)) [] [c]).reverse

/-- The number of nodes of `range n` not yet visited — the potential driving
the fuel-sufficiency argument for `dfsOrder`. -/
def unvisitedCount (n : ℕ) (visited : List ℕ) : ℕ :=
  ((List.range n).filter (fun i => decide (i ∉ visited))).length

/-! ### Pairwise homographies (`_get_match`, `_find_homography`) -/

/-- Dictionary lookup in the match store. -/
def storeLookup (s : Session) (k : ℕ × ℕ) : Option (List DMatch) :=
  match s.matchStore.find? (fun kv => decide (kv.1 = k)) with
  | some kv => some kv.2
  | none => none

/-- The method `_get_match(src_idx, dst_idx)`: the record under `(src, dst)`
if present, else the record under `(dst, src)`; a missing pair raises
`KeyError` (modelled as an error). -/
def get_match (s : Session) (i j : ℕ) : Except StitchError (List DMatch) :=
  match storeLookup s (i, j) with
  | some m => .ok m
  | none =>
    match storeLookup s (j, i) with
    | some m => .ok m
    | none => .error (.keyErrorMatch (j, i))

/-- The point-pairing step of `_find_homography`: with `swap` the roles of
`src` and `dst` are exchanged before reading the keypoints (`queryIdx` indexes
the swapped source, `trainIdx` the swapped destination), and the two data
arrays are exchanged back afterwards, so that the estimation still runs from
`src` to `dst`.  Returns the `(src_data, dst_data)` pair finally handed to
`cv2.findHomography`. -/
def find_homography_data (src dst : StitchImage) (ms : List DMatch)
    (swap : Bool) : List (ℚ × ℚ) × List (ℚ × ℚ) :=
  let src1 := if swap then dst else src
  let dst1 := if swap then src else dst
  let srcData := ms.map (fun m => src1.kp.getD m.queryIdx (0, 0))
  let dstData := ms.map (fun m => dst1.kp.getD m.trainIdx (0, 0))
  if swap then (dstData, srcData) else (srcData, dstData)

/-- The method `_find_homography(src, dst, matches, swap)`: pair up the
keypoints, run the external estimator, and raise if it reports zero
inliers. -/
def find_homography (src dst : StitchImage) (ms : List DMatch) (swap : Bool)
    (est : Est) : Except StitchError M3 :=
  let dat := find_homography_data src dst ms swap
  let r := est dat.1 dat.2
  if r.2 = 0 then .error .homographyNoInliers else .ok r.1

/-! ### Homography composition (`_calculate_total_homographies`) -/

/-- Phase one of `_calculate_total_homographies`: walk `enumerate(parents)`
(the counter starts at `k`); the center node — detected by a negative
predecessor or by index equality with the center — contributes the identity,
every other node contributes the homography from it to its predecessor,
looked up in the store under either orientation (`swap` set when the record is
stored under the opposite one). -/
def calcNextH (s : Session) (est : Est) (c : ℕ) :
    ℕ → List ℤ → Except StitchError (List M3)
  | _, [] => .ok []
  | k, dst :: rest =>
    if dst < 0 ∨ k = c then
      match calcNextH s est c (k + 1) rest with
      | .error e => .error e
      | .ok t => .ok (m3id :: t)
    else
      match get_match s k dst.toNat with
      | .error e => .error e
      | .ok ms =>
        let swap := (storeLookup s (k, dst.toNat)).isNone
        match find_homography (s.images.getD k default)
            (s.images.getD dst.toNat default) ms swap est with
        | .error e => .error e
        | .ok H =>
          match calcNextH s est c (k + 1) rest with
          | .error e => .error e
          | .ok t => .ok (H :: t)

/-- The inner `while path:` loop of `_calculate_total_homographies`. The work
stack keeps its top at the head.  Popping `src`: the center is skipped; if the
predecessor's composed matrix is still unknown, `src` and the predecessor are
pushed back (predecessor on top); otherwise `total_H[src] =
next_H[src].dot(total_H[dst])` is written.  The companion counts list records
how many times each slot is written.  Fuel bounds the iteration count; the
outer loop passes enough for every spanning tree. -/
def innerLoop (c : ℕ) (parents : List ℤ) (nextH : List M3) :
    ℕ → List ℕ → List (Option M3) → List ℕ → List (Option M3) × List ℕ
  | 0, _, total, counts => (total, counts)
  | _ + 1, [], total, counts => (total, counts)
  | f + 1, src :: path, total, counts =>
    if src = c then innerLoop c parents nextH f path total counts
    else
      let dst := (parents.getD src 0).toNat
      if (total.getD dst none).isNone then
        innerLoop c parents nextH f (dst :: src :: path) total counts
      else
        innerLoop c parents nextH f path
          (total.set src (some ((nextH.getD src m3id).mul
            ((total.getD dst none).getD m3id))))
          (counts.set src (counts.getD src 0 + 1))

/-- First index holding `none`, i.e. the generator
`next(n for n, i in enumerate(total_H) if i is None)`. -/
def firstNoneIdx : List (Option M3) → Option ℕ
  | [] => none
  | none :: _ => some 0
  | some _ :: rest => (firstNoneIdx rest).map (· + 1)

/-- The outer `while any(i is None for i in total_H):` loop: seed the work
stack with the first unresolved node and run the inner loop. -/
def outerLoop (c : ℕ) (parents : List ℤ) (nextH : List M3) :
    ℕ → List (Option M3) → List ℕ → List (Option M3) × List ℕ
  | 0, total, counts => (total, counts)
  | f + 1, total, counts =>
    match firstNoneIdx total with
    | none => (total, counts)
    | some i =>
      outerLoop c parents nextH f
        (innerLoop c parents nextH (2 * total.length + 2) [i] total counts).1
        (innerLoop c parents nextH (2 * total.length + 2) [i] total counts).2

/-- Phase two of `_calculate_total_homographies`: `total_H[c] = next_H[c]`,
then the memoized two-phase walk until every slot is filled.  The second
component counts the writes into each slot (the center's initial assignment
counted as its one write). -/
def composeTotal (c : ℕ) (parents : List ℤ) (nextH : List M3) :
    List (Option M3) × List ℕ :=
  let n := parents.length
  outerLoop c parents nextH (n + 1)
    ((List.replicate n (none : Option M3)).set c (some (nextH.getD c m3id)))
    ((List.replicate n 0).set c 1)

/-- The spanning-tree parent of node `i`, as the loop reads it:
`parents[src_idx]` used as an index. -/
def parentOf (parents : List ℤ) (i : ℕ) : ℕ := (parents.getD i 0).toNat

/-- Loop invariant of the memoized walk: the state has the right shape, the
center slot holds its phase-one matrix, every other filled slot is its
phase-one matrix multiplied (on the left) into its parent's filled slot, and
the write counter of a slot is exactly one when the slot is filled and zero
when it is not — so a slot is never written twice. -/
def TotalInv (c : ℕ) (parents : List ℤ) (nextH : List M3) (n : ℕ)
    (total : List (Option M3)) (counts : List ℕ) : Prop :=
  total.length = n ∧ counts.length = n ∧
  total.getD c none = some (nextH.getD c m3id) ∧
  (∀ i, i < n → i ≠ c → ∀ v, total.getD i none = some v →
    ∃ w, total.getD (parentOf parents i) none = some w ∧
      v = (nextH.getD i m3id).mul w) ∧
  (∀ i, i < n → counts.getD i 0 = if (total.getD i none).isSome then 1 else 0)

/-- Shape of the work stack during the memoized walk: a parent chain, top of
the stack first, each entry being the parent of the next one, all entries
valid non-center nodes whose composed slot is still empty. -/
def ChainTo (c n : ℕ) (parents : List ℤ) (total : List (Option M3)) :
    List ℕ → Prop
  | [] => True
  | [q] => q < n ∧ q ≠ c ∧ total.getD q none = none
  | q :: q2 :: rest =>
    q < n ∧ q ≠ c ∧ total.getD q none = none ∧ parentOf parents q2 = q ∧
    ChainTo c n parents total (q2 :: rest)

/-- One total-map extends another: every filled slot keeps its value. -/
def Mono (t t2 : List (Option M3)) : Prop :=
  ∀ i v, t.getD i none = some v → t2.getD i none = some v

/-- Number of still-empty slots, the measure of the outer loop. -/
def noneCount (l : List (Option M3)) : ℕ := l.countP (fun o => o.isNone)

/-- The method `_calculate_total_homographies(parents)` (both phases). -/
def calculate_total_homographies (s : Session) (est : Est) (c : ℕ)
    (parents : List ℤ) : Except StitchError (List (Option M3) × List ℕ) :=
  match calcNextH s est c 0 parents with
  | .error e => .error e
  | .ok nextH => .ok (composeTotal c parents nextH)

/-! ### Corners, bounds and the stitch pipeline -/

/-- The method `_calculate_new_corners(Hs)`: each image's corner quadrilateral
pushed through its composed transform by `cv2.perspectiveTransform` (which, on
these inputs, always yields exactly one quadrilateral per image, so the
degenerate-shape error branch of the source is unreachable in the model). -/
def calcNewCorners (images : List StitchImage) (Hs : List M3) :
    List (List (ℚ × ℚ)) :=
  List.zipWith (fun (img : StitchImage) H =>
    (image_corners img.height img.width).map (applyH H)) images Hs

/-- Everything `stitch()` computes before the global bounds: the edge matrix,
validation, the center (through the cache, as the `center` property does),
the Dijkstra predecessors, the composed homographies and the transformed
corner quadrilaterals.  Returns the corners together with the predecessor
array and the center. -/
def stitchCorners (s : Session) (est : Est) :
    Except StitchError (List (List (ℚ × ℚ)) × List ℤ × ℕ) :=
  match edge_matrix s with
  | .error e => .error e
  | .ok es =>
    let n := s.images.length
    match validate (s.images.map (fun im => im.name)) n es with
    | .error e => .error e
    | .ok _ =>
      let c := match s.centerCache with
               | some c0 => c0
               | none => find_center es n
      let parents := dijkstraParents es n c
      match calculate_total_homographies s est c parents with
      | .error e => .error e
      | .ok tc =>
        if tc.1.any (fun o => o.isNone) then .error .fuelExhausted
        else
          .ok (calcNewCorners s.images (tc.1.map (fun o => o.getD m3id)),
               parents, c)

/-- Result of `stitch()`: the canvas is summarised by its placement data —
the global shift (top-left corner of the bounding rectangle) and its size
`(width, height)` (the canvas buffer is allocated as
`np.zeros((size[1], size[0], 4))`), together with the draw order; pixel
contents come from the external warps composited by `paste_image`, modelled
separately above. -/
structure StitchOutput where
  shift : ℤ × ℤ
  size : ℤ × ℤ
  order : List ℕ
  deriving DecidableEq, Repr

/-- The method `stitch()` down to the allocated canvas and draw order: global
bounds are the fitting rectangle of all transformed corners
(`_calculate_bounds`), the draw order the reversed depth-first order. -/
def stitch (s : Session) (est : Est) : Except StitchError StitchOutput :=
  match stitchCorners s est with
  | .error e => .error e
  | .ok (corners, parents, c) =>
    match fitting_rectangle corners.flatten with
    | none => .error .emptyCorners
    | some r =>
      .ok { shift := r.1, size := r.2,
            order := calculate_draw_order parents c s.images.length }

/-! ### Concrete fixtures used to exercise the definitions -/

/-- A small 2×2 image with two keypoints. -/
def imgA : StitchImage := { height := 2, width := 2, name := "a", kp := [(0, 0), (1, 1)] }

/-- A second small image. -/
def imgB : StitchImage := { height := 2, width := 2, name := "b", kp := [(0, 0), (1, 1)] }

/-- A third small image. -/
def imgC : StitchImage := { height := 2, width := 2, name := "c", kp := [(0, 0), (1, 1)] }

/-- A session holding exactly one image and hence no pairwise match records. -/
def sessionSingle : Session :=
  { images := [imgA], matchStore := [], centerCache := none }

/-- A two-element match record used by the fixture sessions. -/
def msPair : List DMatch := [⟨0, 0⟩, ⟨1, 1⟩]

/-- A two-image session whose single match record is stored under `(1, 0)`,
as `add_image` stores it (new index first); the center cache is primed the
way a caller-set `center` property leaves it. -/
def sessionPair : Session :=
  { images := [imgA, imgB],
    matchStore := [((1, 0), msPair)],
    centerCache := some 0 }

/-- A three-image session whose third image shares no match record with the
other two: its match graph has two connected components. -/
def sessionSplit : Session :=
  { images := [imgA, imgB, imgC],
    matchStore := [((1, 0), msPair)],
    centerCache := none }

/-- A homography oracle that always returns the identity with one inlier. -/
def estConst : Est := fun _ _ => (m3id, 1)

end Stitcher

namespace Stitcher

/-! ## Generic list helpers -/

theorem getD_set_eq {α : Type} (l : List α) (i : ℕ) (v d : α)
    (h : i < l.length) : (l.set i v).getD i d = v := by
  simp [List.getD, List.getElem?_set_self, h]

theorem getD_set_ne {α : Type} (l : List α) {i j : ℕ} (v d : α)
    (h : i ≠ j) : (l.set i v).getD j d = l.getD j d := by
  simp [List.getD, List.getElem?_set_ne h]

theorem getD_replicate_lt {α : Type} (n i : ℕ) (v d : α) (h : i < n) :
    (List.replicate n v).getD i d = v := by
  simp [List.getD, List.getElem?_replicate, h]

theorem getD_map_range {α : Type} (n j : ℕ) (f : ℕ → α) (d : α)
    (h : j < n) : ((List.range n).map f).getD j d = f j := by
  simp [List.getD, List.getElem?_map, List.getElem?_range h]

theorem foldl_min_le_init {α : Type} [LinearOrder α] :
    ∀ (l : List α) (a : α), l.foldl min a ≤ a := by
  intro l
  induction l with
  | nil => intro a; exact le_refl a
  | cons x xs ih =>
    intro a
    calc (x :: xs).foldl min a = xs.foldl min (min a x) := rfl
    _ ≤ min a x := ih (min a x)
    _ ≤ a := min_le_left a x

theorem foldl_min_le_mem {α : Type} [LinearOrder α] :
    ∀ (l : List α) (a : α) (x : α), x ∈ l → l.foldl min a ≤ x := by
  intro l
  induction l with
  | nil => intro a x hx; cases hx
  | cons y ys ih =>
    intro a x hx
    rcases List.mem_cons.mp hx with h | h
    · subst h
      calc (x :: ys).foldl min a = ys.foldl min (min a x) := rfl
      _ ≤ min a x := foldl_min_le_init ys (min a x)
      _ ≤ x := min_le_right a x
    · exact ih (min a y) x h

theorem le_foldl_min {α : Type} [LinearOrder α] :
    ∀ (l : List α) (a b : α), b ≤ a → (∀ x ∈ l, b ≤ x) → b ≤ l.foldl min a := by
  intro l
  induction l with
  | nil => intro a b hb _; exact hb
  | cons y ys ih =>
    intro a b hb h
    exact ih (min a y) b (le_min hb (h y (List.mem_cons_self y ys)))
      (fun x hx => h x (List.mem_cons_of_mem y hx))

theorem init_le_foldl_max {α : Type} [LinearOrder α] :
    ∀ (l : List α) (a : α), a ≤ l.foldl max a := by
  intro l
  induction l with
  | nil => intro a; exact le_refl a
  | cons x xs ih =>
    intro a
    calc a ≤ max a x := le_max_left a x
    _ ≤ xs.foldl max (max a x) := ih (max a x)

theorem mem_le_foldl_max {α : Type} [LinearOrder α] :
    ∀ (l : List α) (a : α) (x : α), x ∈ l → x ≤ l.foldl max a := by
  intro l
  induction l with
  | nil => intro a x hx; cases hx
  | cons y ys ih =>
    intro a x hx
    rcases List.mem_cons.mp hx with h | h
    · subst h
      calc x ≤ max a x := le_max_right a x
      _ ≤ ys.foldl max (max a x) := init_le_foldl_max ys (max a x)
    · exact ih (max a y) x h

theorem foldl_max_le {α : Type} [LinearOrder α] :
    ∀ (l : List α) (a b : α), a ≤ b → (∀ x ∈ l, x ≤ b) → l.foldl max a ≤ b := by
  intro l
  induction l with
  | nil => intro a b hb _; exact hb
  | cons y ys ih =>
    intro a b hb h
    exact ih (max a y) b (max_le hb (h y (List.mem_cons_self y ys)))
      (fun x hx => h x (List.mem_cons_of_mem y hx))

/-! ## Claim C1 — single-image sessions -/

/-- Claim C1 (settled as a code bug).  The claim says a single-image session
stitches trivially; on the code, `_edge_matrix` evaluates Python `max()` over
the empty match store and raises, so `stitch()` fails on every single-image
session instead of succeeding: the embedding returns the max-of-empty
`ValueError` from `_edge_matrix` and hence from `stitch`, for every
homography oracle. -/
theorem claim1_single_image_fails :
    edge_matrix sessionSingle = .error .valueErrorMaxEmpty ∧
    ∀ est : Est, stitch sessionSingle est = .error .valueErrorMaxEmpty :=
  ⟨rfl, fun _ => rfl⟩

/-! ## Claim C2 — the per-pixel compositing formula -/

/-- Claim C2, counterexample.  At a destination pixel holding 100, with a
source pixel of value 0 and alpha 128, the code pastes 100 (the mask
`255 − 128` is nonzero, so the destination is kept in full), while the
claimed formula — destination scaled by `(255 − source alpha)` plus source —
yields 49.  The claim as stated is therefore false at this input. -/
theorem claim2_counterexample :
    paste_image (fun _ _ _ => 100) (fun _ _ ch => if ch = 3 then 128 else 0)
        1 1 (0, 0) 0 0 0 ≠
      specScaledBlendPixel 100 0 128 := by
  decide

/-- Claim C2, amended.  For every destination pixel of the pasted region the
result equals the source pixel value plus the previous destination value,
where the destination value is kept in full when the source alpha is below
255 and zeroed when it is 255 (a binary mask, not a proportional scale), the
sum saturating at 255. -/
theorem claim2_paste_is_masked_add (base img : ℕ → ℕ → Fin 4 → ℕ)
    (h w sx sy y x : ℕ) (ch : Fin 4)
    (hy1 : sy ≤ y) (hy2 : y < sy + h) (hx1 : sx ≤ x) (hx2 : x < sx + w) :
    paste_image base img h w (sx, sy) y x ch =
      min 255 ((if 255 ≤ img (y - sy) (x - sx) 3 then 0 else base y x ch) +
        img (y - sy) (x - sx) ch) := by
  by_cases hA : 255 ≤ img (y - sy) (x - sx) 3
  · simp [paste_image, pastePixel, cv2add, maskKeep, hy1, hy2, hx1, hx2,
      Nat.sub_eq_zero_of_le hA, hA]
  · have hmask : ¬ (255 - img (y - sy) (x - sx) 3 = 0) := by omega
    simp [paste_image, pastePixel, cv2add, maskKeep, hy1, hy2, hx1, hx2,
      hmask, hA]

/-- Witness for the amended claim C2 at a concrete pixel. -/
theorem claim2_paste_witness :
    paste_image (fun _ _ _ => 7) (fun _ _ _ => 5) 1 1 (0, 0) 0 0 2 =
      min 255 ((if (255 : ℕ) ≤ 5 then 0 else 7) + 5) :=
  claim2_paste_is_masked_add (fun _ _ _ => 7) (fun _ _ _ => 5) 1 1 0 0 0 0 2
    (Nat.le_refl 0) (by decide) (Nat.le_refl 0) (by decide)

/-! ## Claim C7 — unknown configuration keys -/

theorem setAttr_fst (obj : AttrObj) (k : String) (v : PyVal) :
    (setAttr obj k v).map Prod.fst = obj.map Prod.fst := by
  induction obj with
  | nil => rfl
  | cons p t ih =>
    show (if p.1 = k then (k, v) else p).1 :: (setAttr t k v).map Prod.fst =
      p.1 :: t.map Prod.fst
    by_cases h : p.1 = k
    · rw [if_pos h, ih, h]
    · rw [if_neg h, ih]

theorem hasAttr_setAttr (obj : AttrObj) (k : String) (v : PyVal)
    (k2 : String) : hasAttr (setAttr obj k v) k2 = hasAttr obj k2 := by
  unfold hasAttr
  rw [setAttr_fst]

theorem setAttrEx_fst (obj : AttrObj) (k : String) (v : PyVal)
    (obj2 : AttrObj) (h : setAttrEx obj k v = .ok obj2) :
    obj2.map Prod.fst = obj.map Prod.fst := by
  unfold setAttrEx at h
  by_cases h1 : k = "center"
  · rw [if_pos h1] at h
    injection h with h2
    rw [← h2, setAttr_fst]
  · rw [if_neg h1] at h
    by_cases h2 : k = "_edge_matrix"
    · rw [if_pos h2] at h
      exact Except.noConfusion h
    · rw [if_neg h2] at h
      injection h with h3
      rw [← h3, setAttr_fst]

theorem probeAttr_plain (obj : AttrObj) (k : String)
    (h1 : k ≠ "center") (h2 : k ≠ "_edge_matrix") :
    probeAttr obj k = .ok (hasAttr obj k) := by
  unfold probeAttr
  rw [if_neg h1, if_neg h2]

theorem setAttrEx_plain (obj : AttrObj) (k : String) (v : PyVal)
    (h1 : k ≠ "center") (h2 : k ≠ "_edge_matrix") :
    setAttrEx obj k v = .ok (setAttr obj k v) := by
  unfold setAttrEx
  rw [if_neg h1, if_neg h2]

theorem update_defaults_prefix_err (cls : String) :
    ∀ (pre : List (String × PyVal)) (obj : AttrObj) (k : String) (v : PyVal)
      (rest : List (String × PyVal)),
      hasAttr obj k = false → k ≠ "center" → k ≠ "_edge_matrix" →
      (∀ p ∈ pre, hasAttr obj p.1 = true ∧ p.1 ≠ "center" ∧
        p.1 ≠ "_edge_matrix") →
      update_defaults cls obj (pre ++ (k, v) :: rest) =
        .error (.nameError cls k) := by
  intro pre
  induction pre with
  | nil =>
    intro obj k v rest hk h1 h2 _
    show update_defaults cls obj ((k, v) :: rest) = _
    simp only [update_defaults, probeAttr_plain obj k h1 h2, hk]
  | cons q pre ih =>
    intro obj k v rest hk h1 h2 hpre
    obtain ⟨qk, qv⟩ := q
    obtain ⟨hq1, hq2, hq3⟩ := hpre (qk, qv) (List.mem_cons_self (qk, qv) pre)
    show update_defaults cls obj ((qk, qv) :: (pre ++ (k, v) :: rest)) = _
    simp only [update_defaults, probeAttr_plain obj qk hq2 hq3, hq1,
      setAttrEx_plain obj qk qv hq2 hq3]
    apply ih
    · rw [hasAttr_setAttr]
      exact hk
    · exact h1
    · exact h2
    · intro p hp
      obtain ⟨hpa, hpb, hpc⟩ := hpre p (List.mem_cons_of_mem (qk, qv) hp)
      exact ⟨by rw [hasAttr_setAttr]; exact hpa, hpb, hpc⟩

theorem update_defaults_no_ok (cls : String) :
    ∀ (kwargs : List (String × PyVal)) (obj : AttrObj),
      (∃ p ∈ kwargs, hasAttr obj p.1 = false ∧ p.1 ≠ "center" ∧
        p.1 ≠ "_edge_matrix") →
      ∀ obj2, update_defaults cls obj kwargs ≠ .ok obj2 := by
  intro kwargs
  induction kwargs with
  | nil =>
    rintro obj ⟨p, hp, _⟩
    cases hp
  | cons q rest ih =>
    rintro obj ⟨p, hp, hfalse, hpc, hpe⟩ obj2 hok
    obtain ⟨qk, qv⟩ := q
    rw [update_defaults] at hok
    rcases hpr : probeAttr obj qk with e | b
    · rw [hpr] at hok
      exact Except.noConfusion hok
    · cases b with
      | false =>
        rw [hpr] at hok
        exact Except.noConfusion hok
      | true =>
        rw [hpr] at hok
        rcases hse : setAttrEx obj qk qv with e | obj3
        · rw [hse] at hok
          exact Except.noConfusion hok
        · rw [hse] at hok
          have hbad : p ∈ rest := by
            rcases List.mem_cons.mp hp with h | h
            · exfalso
              rw [h] at hfalse hpc hpe
              rw [probeAttr_plain obj qk hpc hpe, hfalse] at hpr
              injection hpr with h4
              exact Bool.noConfusion h4
            · exact h
          refine ih obj3 ⟨p, hbad, ?_, hpc, hpe⟩ obj2 hok
          show hasAttr obj3 p.1 = false
          unfold hasAttr
          rw [setAttrEx_fst obj qk qv obj3 hse]
          exact hfalse

/-- Counterexample to claim C7 as stated.  The keyword dictionary
`{center: 3, bogus: 1}` contains the key `bogus`, which is not an attribute
of the object, yet construction does not fail with an error naming the
unknown key: the `hasattr` probe of the earlier key `center` runs the
property getter, whose `ValueError('Must have at least one image!')`
propagates out of `hasattr` (in Python 3 `hasattr` swallows only
`AttributeError`), and that `ValueError` names no key. -/
theorem claim7_counterexample :
    initStitcher [("center", PyVal.vnat 3), ("bogus", PyVal.vnat 1)] =
      .error .valueErrorNoImages ∧
    hasAttr initialAttrs "bogus" = false ∧
    ∀ k : String, StitchError.valueErrorNoImages ≠
      .nameError "ImageStitcher" k :=
  ⟨rfl, by decide, fun _ h => StitchError.noConfusion h⟩

/-- Claim C7 (amended).  A constructor call whose keyword dictionary contains
an unknown key never produces an object, so no attribute assignment of a
rejected call survives; and whenever the keys preceding the unknown key are
ordinary known attributes (none of them probing the raising properties
`center` or `_edge_matrix`), the failure is the `NameError` naming that
unknown key. -/
theorem claim7_unknown_config_key (pre rest : List (String × PyVal))
    (k : String) (v : PyVal)
    (hk : hasAttr initialAttrs k = false)
    (h1 : k ≠ "center") (h2 : k ≠ "_edge_matrix")
    (hpre : ∀ p ∈ pre, hasAttr initialAttrs p.1 = true ∧ p.1 ≠ "center" ∧
      p.1 ≠ "_edge_matrix") :
    initStitcher (pre ++ (k, v) :: rest) =
      .error (.nameError "ImageStitcher" k) ∧
    (∀ obj, initStitcher (pre ++ (k, v) :: rest) ≠ .ok obj) ∧
    ∀ kwargs : List (String × PyVal),
      (∃ p ∈ kwargs, hasAttr initialAttrs p.1 = false ∧ p.1 ≠ "center" ∧
        p.1 ≠ "_edge_matrix") →
      ∀ obj, initStitcher kwargs ≠ .ok obj := by
  have herr : update_defaults "ImageStitcher" initialAttrs
      (pre ++ (k, v) :: rest) = .error (.nameError "ImageStitcher" k) :=
    update_defaults_prefix_err "ImageStitcher" pre initialAttrs k v rest
      hk h1 h2 hpre
  refine ⟨herr, fun obj hok => ?_, fun kwargs hkw obj => ?_⟩
  · rw [initStitcher, herr] at hok
    exact Except.noConfusion hok
  · exact update_defaults_no_ok "ImageStitcher" kwargs initialAttrs hkw obj

/-- Witness for the amended claim C7: a keyword dictionary carrying one valid
key and one unknown key `bogus` is rejected with the `NameError` naming
`bogus`, and no keyword dictionary with an ordinary unknown key ever yields
an object. -/
theorem claim7_witness :
    initStitcher [("ratio_threshold", PyVal.vrat (1 / 2)),
      ("bogus", PyVal.vnat 1)] =
      .error (.nameError "ImageStitcher" "bogus") ∧
    (∀ obj, initStitcher [("ratio_threshold", PyVal.vrat (1 / 2)),
      ("bogus", PyVal.vnat 1)] ≠ .ok obj) ∧
    ∀ kwargs : List (String × PyVal),
      (∃ p ∈ kwargs, hasAttr initialAttrs p.1 = false ∧ p.1 ≠ "center" ∧
        p.1 ≠ "_edge_matrix") →
      ∀ obj, initStitcher kwargs ≠ .ok obj :=
  claim7_unknown_config_key [("ratio_threshold", PyVal.vrat (1 / 2))] []
    "bogus" (PyVal.vnat 1) (by decide) (by decide) (by decide) (by decide)

/-! ## Claim C10 — edge weights of the match graph -/

/-- Claim C10.  Whenever the session holds at least one match record (and at
least one image, so that the edge matrix is built at all), the edge list is
exactly one edge per stored record weighted `max count + 1 − count`, and
every weight is at least 1 — the strictly positive weights that Dijkstra and
the shortest-path computations rely on. -/
theorem claim10_edge_weights (s : Session) (es : List ((ℕ × ℕ) × ℕ))
    (c0 : ℕ) (cs : List ℕ)
    (himg : s.images.length ≠ 0) (hcounts : matchCounts s = c0 :: cs)
    (h : edge_matrix s = .ok es) :
    es = s.matchStore.map
        (fun kv => (kv.1, maxCount c0 cs + 1 - kv.2.length)) ∧
    ∀ kv ∈ s.matchStore, kv.2.length ≤ maxCount c0 cs ∧
      1 ≤ maxCount c0 cs + 1 - kv.2.length := by
  rw [edge_matrix, if_neg himg, hcounts] at h
  refine ⟨by injection h with h2; exact h2.symm, fun kv hkv => ?_⟩
  have hmem : kv.2.length ∈ matchCounts s :=
    List.mem_map.mpr ⟨kv, hkv, rfl⟩
  rw [hcounts] at hmem
  have hle : kv.2.length ≤ maxCount c0 cs := by
    rcases List.mem_cons.mp hmem with h | h
    · rw [h]; exact init_le_foldl_max cs c0
    · exact mem_le_foldl_max cs c0 kv.2.length h
  exact ⟨hle, by omega⟩

/-- Witness for claim C10 on the two-image session. -/
theorem claim10_witness :
    [((1, 0), (1 : ℕ))] = sessionPair.matchStore.map
        (fun kv => (kv.1, maxCount 2 [] + 1 - kv.2.length)) ∧
    ∀ kv ∈ sessionPair.matchStore, kv.2.length ≤ maxCount 2 [] ∧
      1 ≤ maxCount 2 [] + 1 - kv.2.length :=
  claim10_edge_weights sessionPair [((1, 0), 1)] 2 [] (by decide) rfl rfl

/-! ## Claim C8 — canvas bounds -/

theorem fitting_rectangle_mem (points : List (ℚ × ℚ)) (L T W H : ℤ)
    (h : fitting_rectangle points = some ((L, T), (W, H))) :
    ∀ q ∈ points, (L : ℚ) ≤ q.1 ∧ q.1 ≤ (L : ℚ) + (W : ℚ) ∧
      (T : ℚ) ≤ q.2 ∧ q.2 ≤ (T : ℚ) + (H : ℚ) := by
  cases points with
  | nil => rw [fitting_rectangle] at h; exact Option.noConfusion h
  | cons p0 ps =>
    simp only [fitting_rectangle, Option.some.injEq, Prod.mk.injEq] at h
    obtain ⟨⟨hL, hT⟩, hW, hH⟩ := h
    subst hL
    subst hT
    subst hW
    subst hH
    intro q hq
    have hminx : (ps.map Prod.fst).foldl min p0.1 ≤ q.1 := by
      rcases List.mem_cons.mp hq with hh | hmem
      · rw [hh]; exact foldl_min_le_init _ _
      · exact foldl_min_le_mem _ _ _ (List.mem_map.mpr ⟨q, hmem, rfl⟩)
    have hmaxx : q.1 ≤ (ps.map Prod.fst).foldl max p0.1 := by
      rcases List.mem_cons.mp hq with hh | hmem
      · rw [hh]; exact init_le_foldl_max _ _
      · exact mem_le_foldl_max _ _ _ (List.mem_map.mpr ⟨q, hmem, rfl⟩)
    have hminy : (ps.map Prod.snd).foldl min p0.2 ≤ q.2 := by
      rcases List.mem_cons.mp hq with hh | hmem
      · rw [hh]; exact foldl_min_le_init _ _
      · exact foldl_min_le_mem _ _ _ (List.mem_map.mpr ⟨q, hmem, rfl⟩)
    have hmaxy : q.2 ≤ (ps.map Prod.snd).foldl max p0.2 := by
      rcases List.mem_cons.mp hq with hh | hmem
      · rw [hh]; exact init_le_foldl_max _ _
      · exact mem_le_foldl_max _ _ _ (List.mem_map.mpr ⟨q, hmem, rfl⟩)
    have hfx := Int.floor_le ((ps.map Prod.fst).foldl min p0.1)
    have hfy := Int.floor_le ((ps.map Prod.snd).foldl min p0.2)
    have hcx := Int.le_ceil ((ps.map Prod.fst).foldl max p0.1 -
      ((⌊(ps.map Prod.fst).foldl min p0.1⌋ : ℤ) : ℚ))
    have hcy := Int.le_ceil ((ps.map Prod.snd).foldl max p0.2 -
      ((⌊(ps.map Prod.snd).foldl min p0.2⌋ : ℤ) : ℚ))
    refine ⟨le_trans hfx hminx, by linarith, le_trans hfy hminy, by linarith⟩

theorem fitting_rectangle_sub (ps qs : List (ℚ × ℚ)) (L1 T1 W1 H1 L2 T2 W2 H2 : ℤ)
    (h1 : fitting_rectangle ps = some ((L1, T1), (W1, H1)))
    (h2 : fitting_rectangle qs = some ((L2, T2), (W2, H2)))
    (hsub : ∀ p ∈ ps, p ∈ qs) :
    W1 ≤ W2 ∧ H1 ≤ H2 := by
  cases ps with
  | nil => rw [fitting_rectangle] at h1; exact Option.noConfusion h1
  | cons p0 pt =>
    cases qs with
    | nil => rw [fitting_rectangle] at h2; exact Option.noConfusion h2
    | cons q0 qt =>
      simp only [fitting_rectangle, Option.some.injEq, Prod.mk.injEq] at h1 h2
      obtain ⟨⟨hL1, hT1⟩, hW1, hH1⟩ := h1
      obtain ⟨⟨hL2, hT2⟩, hW2, hH2⟩ := h2
      subst hW1
      subst hH1
      subst hW2
      subst hH2
      have hminq : ∀ r ∈ q0 :: qt, (qt.map Prod.fst).foldl min q0.1 ≤ r.1 := by
        intro r hr
        rcases List.mem_cons.mp hr with hh | hmem
        · rw [hh]; exact foldl_min_le_init _ _
        · exact foldl_min_le_mem _ _ _ (List.mem_map.mpr ⟨r, hmem, rfl⟩)
      have hmaxq : ∀ r ∈ q0 :: qt, r.1 ≤ (qt.map Prod.fst).foldl max q0.1 := by
        intro r hr
        rcases List.mem_cons.mp hr with hh | hmem
        · rw [hh]; exact init_le_foldl_max _ _
        · exact mem_le_foldl_max _ _ _ (List.mem_map.mpr ⟨r, hmem, rfl⟩)
      have hminqy : ∀ r ∈ q0 :: qt, (qt.map Prod.snd).foldl min q0.2 ≤ r.2 := by
        intro r hr
        rcases List.mem_cons.mp hr with hh | hmem
        · rw [hh]; exact foldl_min_le_init _ _
        · exact foldl_min_le_mem _ _ _ (List.mem_map.mpr ⟨r, hmem, rfl⟩)
      have hmaxqy : ∀ r ∈ q0 :: qt, r.2 ≤ (qt.map Prod.snd).foldl max q0.2 := by
        intro r hr
        rcases List.mem_cons.mp hr with hh | hmem
        · rw [hh]; exact init_le_foldl_max _ _
        · exact mem_le_foldl_max _ _ _ (List.mem_map.mpr ⟨r, hmem, rfl⟩)
      have hminx : (qt.map Prod.fst).foldl min q0.1 ≤
          (pt.map Prod.fst).foldl min p0.1 := by
        refine le_foldl_min _ _ _ (hminq p0 (hsub p0 (List.mem_cons_self p0 pt))) ?_
        intro x hx
        obtain ⟨r, hr, hrx⟩ := List.mem_map.mp hx
        rw [← hrx]
        exact hminq r (hsub r (List.mem_cons_of_mem p0 hr))
      have hmaxx : (pt.map Prod.fst).foldl max p0.1 ≤
          (qt.map Prod.fst).foldl max q0.1 := by
        refine foldl_max_le _ _ _ (hmaxq p0 (hsub p0 (List.mem_cons_self p0 pt))) ?_
        intro x hx
        obtain ⟨r, hr, hrx⟩ := List.mem_map.mp hx
        rw [← hrx]
        exact hmaxq r (hsub r (List.mem_cons_of_mem p0 hr))
      have hminy : (qt.map Prod.snd).foldl min q0.2 ≤
          (pt.map Prod.snd).foldl min p0.2 := by
        refine le_foldl_min _ _ _ (hminqy p0 (hsub p0 (List.mem_cons_self p0 pt))) ?_
        intro x hx
        obtain ⟨r, hr, hrx⟩ := List.mem_map.mp hx
        rw [← hrx]
        exact hminqy r (hsub r (List.mem_cons_of_mem p0 hr))
      have hmaxy : (pt.map Prod.snd).foldl max p0.2 ≤
          (qt.map Prod.snd).foldl max q0.2 := by
        refine foldl_max_le _ _ _ (hmaxqy p0 (hsub p0 (List.mem_cons_self p0 pt))) ?_
        intro x hx
        obtain ⟨r, hr, hrx⟩ := List.mem_map.mp hx
        rw [← hrx]
        exact hmaxqy r (hsub r (List.mem_cons_of_mem p0 hr))
      constructor
      · refine Int.ceil_le_ceil ?_
        have hfl : ((⌊(qt.map Prod.fst).foldl min q0.1⌋ : ℤ) : ℚ) ≤
            ((⌊(pt.map Prod.fst).foldl min p0.1⌋ : ℤ) : ℚ) :=
          Int.cast_le.mpr (Int.floor_le_floor hminx)
        linarith
      · refine Int.ceil_le_ceil ?_
        have hfl : ((⌊(qt.map Prod.snd).foldl min q0.2⌋ : ℤ) : ℚ) ≤
            ((⌊(pt.map Prod.snd).foldl min p0.2⌋ : ℤ) : ℚ) :=
          Int.cast_le.mpr (Int.floor_le_floor hminy)
        linarith

/-- Claim C8.  Whenever `stitch()` returns a canvas, the canvas dimensions
are exactly the fitting rectangle of all transformed corner points (the
computed global bounding rectangle), every transformed corner lies inside
that rectangle (the rectangle rounds outward: floored minima, ceiled
extents), and the rectangle is at least as large, in width and in height, as
the fitting rectangle of every single image's transformed corners.  Failure
cases return one of the defined errors, `stitch` being `Except`-valued. -/
theorem claim8_canvas_bounds (s : Session) (est : Est) (out : StitchOutput)
    (h : stitch s est = .ok out) :
    ∃ corners parents c,
      stitchCorners s est = .ok (corners, parents, c) ∧
      fitting_rectangle corners.flatten = some (out.shift, out.size) ∧
      (∀ q ∈ corners.flatten,
        (out.shift.1 : ℚ) ≤ q.1 ∧ q.1 ≤ (out.shift.1 : ℚ) + (out.size.1 : ℚ) ∧
        (out.shift.2 : ℚ) ≤ q.2 ∧ q.2 ≤ (out.shift.2 : ℚ) + (out.size.2 : ℚ)) ∧
      (∀ cs ∈ corners, ∀ sh sz, fitting_rectangle cs = some (sh, sz) →
        sz.1 ≤ out.size.1 ∧ sz.2 ≤ out.size.2) := by
  rw [stitch] at h
  split at h
  · exact Except.noConfusion h
  rename_i corners parents c hsc
  split at h
  · exact Except.noConfusion h
  rename_i r hfr
  obtain ⟨⟨L, T⟩, W, H⟩ := r
  injection h with h
  subst h
  refine ⟨corners, parents, c, hsc, hfr, ?_, ?_⟩
  · exact fitting_rectangle_mem corners.flatten L T W H hfr
  · intro cs hcs sh sz hfit
    obtain ⟨sh1, sh2⟩ := sh
    obtain ⟨sz1, sz2⟩ := sz
    exact fitting_rectangle_sub cs corners.flatten sh1 sh2 sz1 sz2 L T W H hfit
      hfr (fun p hp => List.mem_flatten.mpr ⟨cs, hcs, hp⟩)

/-- Evaluation of the two-image fixture pipeline down to an unreduced matrix
product: everything outside `ℚ` arithmetic is definitionally computable. -/
theorem stitchCorners_pair_step :
    stitchCorners sessionPair estConst =
      .ok (calcNewCorners [imgA, imgB] [m3id, M3.mul m3id m3id],
        [-9999, 0], 0) := rfl

/-- Evaluation of the fixture corner quadrilaterals, normalising the rational
arithmetic explicitly since `ℚ` does not reduce in the kernel. -/
theorem corners_pair_eval :
    calcNewCorners [imgA, imgB] [m3id, M3.mul m3id m3id] =
      [[(0, 0), (0, 2), (2, 2), (2, 0)], [(0, 0), (0, 2), (2, 2), (2, 0)]] := by
  norm_num [calcNewCorners, image_corners, applyH, M3.mul, m3id, imgA, imgB]

/-- Evaluation of the fixture pipeline up to the corners. -/
theorem stitchCorners_pair_eval :
    stitchCorners sessionPair estConst =
      .ok ([[(0, 0), (0, 2), (2, 2), (2, 0)], [(0, 0), (0, 2), (2, 2), (2, 0)]],
        [-9999, 0], 0) := by
  rw [stitchCorners_pair_step, corners_pair_eval]

/-- Evaluation of `stitch` on the two-image fixture. -/
theorem stitch_pair_eval :
    stitch sessionPair estConst =
      .ok { shift := (0, 0), size := (2, 2), order := [1, 0] } := by
  have hfit : fitting_rectangle
      ([[((0 : ℚ), (0 : ℚ)), (0, 2), (2, 2), (2, 0)],
        [((0 : ℚ), (0 : ℚ)), (0, 2), (2, 2), (2, 0)]] :
          List (List (ℚ × ℚ))).flatten = some ((0, 0), (2, 2)) := by
    norm_num [fitting_rectangle]
  rw [stitch, stitchCorners_pair_eval]
  dsimp only
  rw [hfit]
  rfl

/-- Witness for claim C8 on the two-image fixture session. -/
theorem claim8_witness :
    ∃ corners parents c,
      stitchCorners sessionPair estConst = .ok (corners, parents, c) ∧
      fitting_rectangle corners.flatten =
        some ((StitchOutput.mk (0, 0) (2, 2) [1, 0]).shift,
          (StitchOutput.mk (0, 0) (2, 2) [1, 0]).size) ∧
      (∀ q ∈ corners.flatten,
        (((StitchOutput.mk (0, 0) (2, 2) [1, 0]).shift.1 : ℚ)) ≤ q.1 ∧
        q.1 ≤ ((StitchOutput.mk (0, 0) (2, 2) [1, 0]).shift.1 : ℚ) +
          ((StitchOutput.mk (0, 0) (2, 2) [1, 0]).size.1 : ℚ) ∧
        (((StitchOutput.mk (0, 0) (2, 2) [1, 0]).shift.2 : ℚ)) ≤ q.2 ∧
        q.2 ≤ ((StitchOutput.mk (0, 0) (2, 2) [1, 0]).shift.2 : ℚ) +
          ((StitchOutput.mk (0, 0) (2, 2) [1, 0]).size.2 : ℚ)) ∧
      (∀ cs ∈ corners, ∀ sh sz, fitting_rectangle cs = some (sh, sz) →
        sz.1 ≤ (StitchOutput.mk (0, 0) (2, 2) [1, 0]).size.1 ∧
        sz.2 ≤ (StitchOutput.mk (0, 0) (2, 2) [1, 0]).size.2) :=
  claim8_canvas_bounds sessionPair estConst
    (StitchOutput.mk (0, 0) (2, 2) [1, 0]) stitch_pair_eval

/-! ## Claim C4 — orientation handling in `_find_homography` -/

/-- Claim C4.  The homography estimated for a node `a` and its spanning-tree
parent `b` always runs from `a`'s keypoints to `b`'s keypoints: without swap
the source data reads `a`'s keypoints at `queryIdx` and the destination data
`b`'s at `trainIdx`; when the record is stored under the opposite orientation
`(parent, node)` the swap path exchanges the query/train roles (`queryIdx`
now indexes `b`, `trainIdx` indexes `a`) and then restores the
source/destination order, so the data handed to the estimator is again
(points of `a`, points of `b`).  `_get_match` finds the record stored under
the opposite orientation, and the swap flag is exactly the absence of the
direct key. -/
theorem claim4_swap_orientation (a b : StitchImage) (ms : List DMatch)
    (s : Session) (i j : ℕ) (rec : List DMatch)
    (h1 : storeLookup s (i, j) = none) (h2 : storeLookup s (j, i) = some rec) :
    find_homography_data a b ms false =
      (ms.map (fun m => a.kp.getD m.queryIdx (0, 0)),
       ms.map (fun m => b.kp.getD m.trainIdx (0, 0))) ∧
    find_homography_data a b ms true =
      (ms.map (fun m => a.kp.getD m.trainIdx (0, 0)),
       ms.map (fun m => b.kp.getD m.queryIdx (0, 0))) ∧
    get_match s i j = .ok rec ∧ (storeLookup s (i, j)).isNone = true := by
  refine ⟨rfl, rfl, ?_, by rw [h1]; rfl⟩
  rw [get_match, h1, h2]

/-! ## First-occurrence argmin/argmax, for claims C5 and C6 -/

theorem foldl_min_min {α : Type} [LinearOrder α] :
    ∀ (l : List α) (a b : α), l.foldl min (min a b) = min a (l.foldl min b) := by
  intro l
  induction l with
  | nil => intro a b; rfl
  | cons c t ih =>
    intro a b
    show t.foldl min (min (min a b) c) = min a (t.foldl min (min b c))
    rw [min_assoc, ih]

theorem foldl_max_max :
    ∀ (l : List ℕ) (a b : ℕ), l.foldl max (max a b) = max a (l.foldl max b) := by
  intro l
  induction l with
  | nil => intro a b; rfl
  | cons c t ih =>
    intro a b
    show t.foldl max (max (max a b) c) = max a (t.foldl max (max b c))
    rw [max_assoc, ih]

theorem argminFirst_lt_length {α : Type} [LinearOrder α] :
    ∀ (l : List α), l ≠ [] → argminFirst l < l.length := by
  intro l
  induction l with
  | nil => intro h; exact absurd rfl h
  | cons x xs ih =>
    intro _
    cases xs with
    | nil => simp [argminFirst]
    | cons y rest =>
      rw [argminFirst]
      by_cases h : x ≤ rest.foldl min y
      · rw [if_pos h]; simp
      · rw [if_neg h]
        have := ih (List.cons_ne_nil y rest)
        simpa using Nat.succ_lt_succ this

theorem getD_argminFirst {α : Type} [LinearOrder α] :
    ∀ (xs : List α) (x : α) (d : α),
      (x :: xs).getD (argminFirst (x :: xs)) d = xs.foldl min x := by
  intro xs
  induction xs with
  | nil => intro x d; rfl
  | cons y rest ih =>
    intro x d
    rw [argminFirst]
    by_cases h : x ≤ rest.foldl min y
    · rw [if_pos h]
      show x = (y :: rest).foldl min x
      show x = rest.foldl min (min x y)
      rw [foldl_min_min rest x y, min_eq_left h]
    · rw [if_neg h]
      show (y :: rest).getD (argminFirst (y :: rest)) d = (y :: rest).foldl min x
      rw [ih y d]
      show rest.foldl min y = rest.foldl min (min x y)
      rw [foldl_min_min rest x y, min_eq_right (le_of_lt (not_le.mp h))]

theorem argminFirst_min {α : Type} [LinearOrder α] (l : List α) (d : α)
    (j : ℕ) (hj : j < l.length) :
    l.getD (argminFirst l) d ≤ l.getD j d := by
  cases l with
  | nil => cases hj
  | cons x xs =>
    rw [getD_argminFirst xs x d]
    have hmem : (x :: xs).getD j d ∈ x :: xs := by
      have hg : (x :: xs).getD j d = (x :: xs)[j] := by
        simp [List.getD, List.getElem?_eq_getElem hj]
      rw [hg]
      exact List.getElem_mem hj
    rcases List.mem_cons.mp hmem with hh | hmem2
    · rw [hh]; exact foldl_min_le_init xs x
    · exact foldl_min_le_mem xs x _ hmem2

theorem argminFirst_strict {α : Type} [LinearOrder α] :
    ∀ (l : List α) (d : α) (j : ℕ), j < argminFirst l →
      l.getD (argminFirst l) d < l.getD j d := by
  intro l
  induction l with
  | nil => intro d j hj; simp [argminFirst] at hj
  | cons x xs ih =>
    intro d j hj
    cases xs with
    | nil => simp [argminFirst] at hj
    | cons y rest =>
      rw [argminFirst] at hj ⊢
      by_cases h : x ≤ rest.foldl min y
      · rw [if_pos h] at hj; cases hj
      · rw [if_neg h] at hj ⊢
        cases j with
        | zero =>
          show (x :: y :: rest).getD (argminFirst (y :: rest) + 1) d < x
          rw [List.getD_cons_succ, getD_argminFirst rest y d]
          exact not_le.mp h
        | succ j2 =>
          rw [List.getD_cons_succ, List.getD_cons_succ]
          exact ih d j2 (Nat.lt_of_succ_lt_succ hj)

theorem argmaxFirst_lt_length :
    ∀ (l : List ℕ), l ≠ [] → argmaxFirst l < l.length := by
  intro l
  induction l with
  | nil => intro h; exact absurd rfl h
  | cons x xs ih =>
    intro _
    cases xs with
    | nil => simp [argmaxFirst]
    | cons y rest =>
      rw [argmaxFirst]
      by_cases h : rest.foldl max y ≤ x
      · rw [if_pos h]; simp
      · rw [if_neg h]
        have := ih (List.cons_ne_nil y rest)
        simpa using Nat.succ_lt_succ this

theorem getD_argmaxFirst :
    ∀ (xs : List ℕ) (x : ℕ) (d : ℕ),
      (x :: xs).getD (argmaxFirst (x :: xs)) d = xs.foldl max x := by
  intro xs
  induction xs with
  | nil => intro x d; rfl
  | cons y rest ih =>
    intro x d
    rw [argmaxFirst]
    by_cases h : rest.foldl max y ≤ x
    · rw [if_pos h]
      show x = (y :: rest).foldl max x
      show x = rest.foldl max (max x y)
      rw [foldl_max_max rest x y, max_eq_left h]
    · rw [if_neg h]
      show (y :: rest).getD (argmaxFirst (y :: rest)) d = (y :: rest).foldl max x
      rw [ih y d]
      show rest.foldl max y = rest.foldl max (max x y)
      rw [foldl_max_max rest x y, max_eq_right (le_of_lt (not_le.mp h))]

theorem argmaxFirst_max (l : List ℕ) (d : ℕ) (j : ℕ) (hj : j < l.length) :
    l.getD j d ≤ l.getD (argmaxFirst l) d := by
  cases l with
  | nil => cases hj
  | cons x xs =>
    rw [getD_argmaxFirst xs x d]
    have hmem : (x :: xs).getD j d ∈ x :: xs := by
      have hg : (x :: xs).getD j d = (x :: xs)[j] := by
        simp [List.getD, List.getElem?_eq_getElem hj]
      rw [hg]
      exact List.getElem_mem hj
    rcases List.mem_cons.mp hmem with hh | hmem2
    · rw [hh]; exact init_le_foldl_max xs x
    · exact mem_le_foldl_max xs x _ hmem2

theorem argmaxFirst_strict :
    ∀ (l : List ℕ) (d : ℕ) (j : ℕ), j < argmaxFirst l →
      l.getD j d < l.getD (argmaxFirst l) d := by
  intro l
  induction l with
  | nil => intro d j hj; simp [argmaxFirst] at hj
  | cons x xs ih =>
    intro d j hj
    cases xs with
    | nil => simp [argmaxFirst] at hj
    | cons y rest =>
      rw [argmaxFirst] at hj ⊢
      by_cases h : rest.foldl max y ≤ x
      · rw [if_pos h] at hj; cases hj
      · rw [if_neg h] at hj ⊢
        cases j with
        | zero =>
          show x < (x :: y :: rest).getD (argmaxFirst (y :: rest) + 1) d
          rw [List.getD_cons_succ, getD_argmaxFirst rest y d]
          exact not_le.mp h
        | succ j2 =>
          rw [List.getD_cons_succ, List.getD_cons_succ]
          exact ih d j2 (Nat.lt_of_succ_lt_succ hj)

/-! ## Claim C5 — deterministic center selection -/

/-- Claim C5.  `_find_center` returns a valid node index minimising the
eccentricity (the row maximum of the all-pairs shortest-path matrix), with
ties broken towards the lowest index (`np.argmin` first occurrence); the
cached `center` property is stable across repeated reads; and a node whose
eccentricity is strictly below every other node's is always selected. -/
theorem claim5_center_selection (es : List ((ℕ × ℕ) × ℕ)) (n : ℕ)
    (hn : 0 < n) :
    find_center es n < n ∧
    (∀ j, j < n → ecc es n (find_center es n) ≤ ecc es n j) ∧
    (∀ j, j < find_center es n → ecc es n (find_center es n) < ecc es n j) ∧
    (∀ s c s2, centerGet s = .ok (c, s2) → centerGet s2 = .ok (c, s2)) ∧
    (∀ j, j < n → (∀ k, k < n → k ≠ j → ecc es n j < ecc es n k) →
      find_center es n = j) := by
  have hlen : ((List.range n).map (ecc es n)).length = n := by simp
  have hne : (List.range n).map (ecc es n) ≠ [] := by
    intro hcon
    rw [hcon] at hlen
    simp at hlen
    omega
  have h1 : find_center es n < n := by
    have := argminFirst_lt_length ((List.range n).map (ecc es n)) hne
    rwa [hlen] at this
  have hfc : argminFirst ((List.range n).map (ecc es n)) = find_center es n :=
    rfl
  have h2 : ∀ j, j < n → ecc es n (find_center es n) ≤ ecc es n j := by
    intro j hj
    have hm := argminFirst_min ((List.range n).map (ecc es n)) 0 j
      (by rw [hlen]; exact hj)
    rw [hfc] at hm
    rwa [getD_map_range n (find_center es n) (ecc es n) 0 h1,
      getD_map_range n j (ecc es n) 0 hj] at hm
  have h3 : ∀ j, j < find_center es n →
      ecc es n (find_center es n) < ecc es n j := by
    intro j hj
    have hm := argminFirst_strict ((List.range n).map (ecc es n)) 0 j
      (by rw [hfc]; exact hj)
    rw [hfc] at hm
    rwa [getD_map_range n (find_center es n) (ecc es n) 0 h1,
      getD_map_range n j (ecc es n) 0 (lt_trans hj h1)] at hm
  refine ⟨h1, h2, h3, ?_, ?_⟩
  · intro s c s2 h
    cases hc : s.centerCache with
    | some c0 =>
      simp only [centerGet, hc, Except.ok.injEq, Prod.mk.injEq] at h
      obtain ⟨hc1, hc2⟩ := h
      subst hc1
      subst hc2
      simp only [centerGet, hc]
    | none =>
      cases hem : edge_matrix s with
      | error e =>
        simp only [centerGet, hc, hem] at h
        exact Except.noConfusion h
      | ok es2 =>
        simp only [centerGet, hc, hem, Except.ok.injEq, Prod.mk.injEq] at h
        obtain ⟨hc1, hc2⟩ := h
        subst hc1
        subst hc2
        simp only [centerGet]
  · intro j hj hstrict
    by_contra hne2
    have hlt := hstrict (find_center es n) h1 (fun he => hne2 he)
    exact absurd hlt (not_lt.mpr (h2 j hj))

/-- Witness for claim C5 on the two-node match graph with one edge. -/
theorem claim5_witness :
    find_center [((1, 0), 1)] 2 < 2 ∧
    (∀ j, j < 2 → ecc [((1, 0), 1)] 2 (find_center [((1, 0), 1)] 2) ≤
      ecc [((1, 0), 1)] 2 j) ∧
    (∀ j, j < find_center [((1, 0), 1)] 2 →
      ecc [((1, 0), 1)] 2 (find_center [((1, 0), 1)] 2) < ecc [((1, 0), 1)] 2 j) ∧
    (∀ s c s2, centerGet s = .ok (c, s2) → centerGet s2 = .ok (c, s2)) ∧
    (∀ j, j < 2 → (∀ k, k < 2 → k ≠ j →
        ecc [((1, 0), 1)] 2 j < ecc [((1, 0), 1)] 2 k) →
      find_center [((1, 0), 1)] 2 = j) :=
  claim5_center_selection [((1, 0), 1)] 2 (by decide)

/-! ## Claim C6 — validation and connected components -/

theorem compScan_counter_le (adj : ℕ → ℕ → Bool) (n : ℕ) :
    ∀ (nodes : List ℕ) (labels : List (Option ℕ)) (lab : ℕ),
      lab ≤ (compScan adj n nodes labels lab).2 := by
  intro nodes
  induction nodes with
  | nil => intro labels lab; exact le_refl lab
  | cons i rest ih =>
    intro labels lab
    rw [compScan]
    by_cases h : (labels.getD i none).isSome
    · rw [if_pos h]; exact ih labels lab
    · rw [if_neg h]
      exact le_trans (Nat.le_succ lab) (ih _ (lab + 1))

theorem compScan_counter_pos (adj : ℕ → ℕ → Bool) (n : ℕ) :
    ∀ (nodes : List ℕ) (labels : List (Option ℕ)) (lab : ℕ) (i : ℕ),
      i ∈ nodes → labels.getD i none = none →
      1 ≤ (compScan adj n nodes labels lab).2 := by
  intro nodes
  induction nodes with
  | nil => intro labels lab i hi; cases hi
  | cons j rest ih =>
    intro labels lab i hi hnone
    rw [compScan]
    by_cases h : (labels.getD j none).isSome
    · rw [if_pos h]
      rcases List.mem_cons.mp hi with hh | hmem
      · rw [hh] at hnone
        rw [hnone] at h
        exact absurd h (by simp)
      · exact ih labels lab i hmem hnone
    · rw [if_neg h]
      calc 1 ≤ lab + 1 := Nat.succ_le_succ (Nat.zero_le lab)
      _ ≤ _ := compScan_counter_le adj n rest _ (lab + 1)

theorem componentsOf_count_pos (es : List ((ℕ × ℕ) × ℕ)) (n : ℕ)
    (hn : 1 ≤ n) : 1 ≤ (componentsOf es n).1 := by
  unfold componentsOf connected_components
  exact compScan_counter_pos _ n (List.range n) (List.replicate n none) 0 0
    (List.mem_range.mpr hn) (getD_replicate_lt n 0 none none hn)

/-- Claim C6.  With a nonempty session, `validate()` succeeds exactly when
the match graph has a single connected component and raises exactly when it
has more than one; the raised error names exactly the images whose component
label differs from the most common label, and the most common label has
maximal occurrence count among all component labels, being the smallest such
label — the component discovered first, since labels are assigned in
discovery order. -/
theorem claim6_validate_components (names : List String) (n : ℕ)
    (es : List ((ℕ × ℕ) × ℕ)) (hn : 1 ≤ n) :
    (validate names n es = .ok () ↔ (componentsOf es n).1 = 1) ∧
    ((∃ err, validate names n es = .error err) ↔ 1 < (componentsOf es n).1) ∧
    (1 < (componentsOf es n).1 →
      validate names n es = .error (.unstitchableImages
        (((List.range n).filter (fun i =>
            decide ((componentsOf es n).2.getD i 0 ≠ mostCommonLabel es n))).map
          (fun i => names.getD i ""))) ∧
      mostCommonLabel es n < (componentsOf es n).1 ∧
      (∀ v, v < (componentsOf es n).1 →
        (componentsOf es n).2.count v ≤
          (componentsOf es n).2.count (mostCommonLabel es n)) ∧
      (∀ v, v < mostCommonLabel es n →
        (componentsOf es n).2.count v <
          (componentsOf es n).2.count (mostCommonLabel es n))) := by
  have hpos := componentsOf_count_pos es n hn
  have hbclen : (bincount (componentsOf es n).2 (componentsOf es n).1).length =
      (componentsOf es n).1 := by simp [bincount]
  by_cases h1 : (componentsOf es n).1 = 1
  · refine ⟨?_, ?_, ?_⟩
    · simp [validate, h1]
    · constructor
      · rintro ⟨err, herr⟩
        rw [validate] at herr
        rw [if_pos h1] at herr
        exact Except.noConfusion herr
      · intro hlt
        rw [h1] at hlt
        exact absurd hlt (lt_irrefl 1)
    · intro hlt
      rw [h1] at hlt
      exact absurd hlt (lt_irrefl 1)
  · have hlt : 1 < (componentsOf es n).1 := lt_of_le_of_ne hpos (Ne.symm h1)
    have herr : validate names n es = .error (.unstitchableImages
        (((List.range n).filter (fun i =>
            decide ((componentsOf es n).2.getD i 0 ≠ mostCommonLabel es n))).map
          (fun i => names.getD i ""))) := by
      rw [validate]
      rw [if_neg h1]
      rfl
    have hbne : bincount (componentsOf es n).2 (componentsOf es n).1 ≠ [] := by
      intro hcon
      rw [hcon] at hbclen
      simp at hbclen
      omega
    have hmlt : mostCommonLabel es n < (componentsOf es n).1 := by
      have := argmaxFirst_lt_length _ hbne
      rwa [hbclen] at this
    refine ⟨?_, ?_, fun _ => ⟨herr, hmlt, ?_, ?_⟩⟩
    · constructor
      · intro hok
        rw [herr] at hok
        exact Except.noConfusion hok
      · intro hcc
        exact absurd hcc h1
    · exact ⟨fun _ => hlt, fun _ => ⟨_, herr⟩⟩
    · intro v hv
      have hm := argmaxFirst_max
        (bincount (componentsOf es n).2 (componentsOf es n).1) 0 v
        (by rw [hbclen]; exact hv)
      have hma : argmaxFirst
          (bincount (componentsOf es n).2 (componentsOf es n).1) =
          mostCommonLabel es n := rfl
      rw [hma] at hm
      simp only [bincount] at hm
      rw [getD_map_range _ v _ 0 hv, getD_map_range _ _ _ 0 hmlt] at hm
      exact hm
    · intro v hv
      have hm := argmaxFirst_strict
        (bincount (componentsOf es n).2 (componentsOf es n).1) 0 v hv
      have hma : argmaxFirst
          (bincount (componentsOf es n).2 (componentsOf es n).1) =
          mostCommonLabel es n := rfl
      rw [hma] at hm
      simp only [bincount] at hm
      rw [getD_map_range _ v _ 0 (lt_trans hv hmlt),
        getD_map_range _ _ _ 0 hmlt] at hm
      exact hm

/-- Witness for claim C6 on a three-image graph with one isolated node. -/
theorem claim6_witness :
    (validate ["a", "b", "c"] 3 [((1, 0), 1)] = .ok () ↔
      (componentsOf [((1, 0), 1)] 3).1 = 1) ∧
    ((∃ err, validate ["a", "b", "c"] 3 [((1, 0), 1)] = .error err) ↔
      1 < (componentsOf [((1, 0), 1)] 3).1) ∧
    (1 < (componentsOf [((1, 0), 1)] 3).1 →
      validate ["a", "b", "c"] 3 [((1, 0), 1)] = .error (.unstitchableImages
        (((List.range 3).filter (fun i =>
            decide ((componentsOf [((1, 0), 1)] 3).2.getD i 0 ≠
              mostCommonLabel [((1, 0), 1)] 3))).map
          (fun i => ["a", "b", "c"].getD i ""))) ∧
      mostCommonLabel [((1, 0), 1)] 3 < (componentsOf [((1, 0), 1)] 3).1 ∧
      (∀ v, v < (componentsOf [((1, 0), 1)] 3).1 →
        (componentsOf [((1, 0), 1)] 3).2.count v ≤
          (componentsOf [((1, 0), 1)] 3).2.count
            (mostCommonLabel [((1, 0), 1)] 3)) ∧
      (∀ v, v < mostCommonLabel [((1, 0), 1)] 3 →
        (componentsOf [((1, 0), 1)] 3).2.count v <
          (componentsOf [((1, 0), 1)] 3).2.count
            (mostCommonLabel [((1, 0), 1)] 3))) :=
  claim6_validate_components ["a", "b", "c"] 3 [((1, 0), 1)] (by decide)

/-- Witness for claim C4 on the two-image session, whose single record is
stored under `(1, 0)` while the spanning tree needs `1 → 0`. -/
theorem claim4_witness :
    find_homography_data imgB imgA msPair false =
      (msPair.map (fun m => imgB.kp.getD m.queryIdx (0, 0)),
       msPair.map (fun m => imgA.kp.getD m.trainIdx (0, 0))) ∧
    find_homography_data imgB imgA msPair true =
      (msPair.map (fun m => imgB.kp.getD m.trainIdx (0, 0)),
       msPair.map (fun m => imgA.kp.getD m.queryIdx (0, 0))) ∧
    get_match sessionPair 0 1 = .ok msPair ∧
    (storeLookup sessionPair (0, 1)).isNone = true :=
  claim4_swap_orientation imgB imgA msPair sessionPair 0 1 msPair rfl rfl

/-! ## Claim C9 — draw order -/

theorem dfsOrder_not_visited (adj : ℕ → List ℕ) :
    ∀ (fuel : ℕ) (visited stack : List ℕ) (j : ℕ),
      j ∈ dfsOrder adj fuel visited stack → j ∉ visited := by
  intro fuel
  induction fuel with
  | zero => intro visited stack j hj; cases hj
  | succ f ih =>
    intro visited stack j hj
    cases stack with
    | nil => cases hj
    | cons x st =>
      rw [dfsOrder] at hj
      by_cases hx : x ∈ visited
      · rw [if_pos hx] at hj
        exact ih visited st j hj
      · rw [if_neg hx] at hj
        rcases List.mem_cons.mp hj with hh | hmem
        · rw [hh]; exact hx
        · intro hcon
          exact ih (x :: visited) (adj x ++ st) j hmem
            (List.mem_cons_of_mem x hcon)

theorem dfsOrder_parent_emitted (parents : List ℤ) (c n : ℕ)
    (hroot : parents.getD c 0 < 0) :
    ∀ (fuel : ℕ) (visited stack l1 l2 : List ℕ) (j : ℕ),
      (∀ y ∈ stack, y ∈ visited ∨ y = c ∨ (parents.getD y 0).toNat ∈ visited) →
      dfsOrder (treeAdj parents n) fuel visited stack = l1 ++ j :: l2 →
      j = c ∨ (parents.getD j 0).toNat ∈ visited ∨
        (parents.getD j 0).toNat ∈ l1 := by
  intro fuel
  induction fuel with
  | zero =>
    intro visited stack l1 l2 j _ heq
    rw [dfsOrder] at heq
    cases l1 <;> exact List.noConfusion heq
  | succ f ih =>
    intro visited stack l1 l2 j hinv heq
    cases stack with
    | nil =>
      rw [dfsOrder] at heq
      cases l1 <;> exact List.noConfusion heq
    | cons x st =>
      rw [dfsOrder] at heq
      by_cases hx : x ∈ visited
      · rw [if_pos hx] at heq
        exact ih visited st l1 l2 j
          (fun y hy => hinv y (List.mem_cons_of_mem x hy)) heq
      · rw [if_neg hx] at heq
        have hxinv := hinv x (List.mem_cons_self x st)
        cases l1 with
        | nil =>
          injection heq with h1 h2
          rcases hxinv with hv | hcase | hp
          · exact absurd hv hx
          · exact Or.inl (h1 ▸ hcase)
          · exact Or.inr (Or.inl (h1 ▸ hp))
        | cons a l1t =>
          injection heq with h1 h2
          have hinv2 : ∀ y ∈ treeAdj parents n x ++ st,
              y ∈ x :: visited ∨ y = c ∨
                (parents.getD y 0).toNat ∈ x :: visited := by
            intro y hy
            rcases List.mem_append.mp hy with hadj | hst
            · have hfilt := List.of_mem_filter hadj
              rcases of_decide_eq_true hfilt with ⟨_, hpy⟩ | ⟨hxnn, hpx⟩
              · exact Or.inr (Or.inr (by rw [hpy]; exact List.mem_cons_self x visited))
              · rcases hxinv with hv | hcase | hp
                · exact absurd hv hx
                · exfalso
                  rw [hcase] at hxnn
                  omega
                · exact Or.inl (by rw [← hpx]; exact List.mem_cons_of_mem x hp)
            · rcases hinv y (List.mem_cons_of_mem x hst) with hv | hcase | hp
              · exact Or.inl (List.mem_cons_of_mem x hv)
              · exact Or.inr (Or.inl hcase)
              · exact Or.inr (Or.inr (List.mem_cons_of_mem x hp))
          rcases ih (x :: visited) (treeAdj parents n x ++ st) l1t l2 j hinv2 h2
            with hc | hv | hl
          · exact Or.inl hc
          · rcases List.mem_cons.mp hv with hh | hmem
            · exact Or.inr (Or.inr (by rw [hh, h1]; exact List.mem_cons_self a l1t))
            · exact Or.inr (Or.inl hmem)
          · exact Or.inr (Or.inr (List.mem_cons_of_mem a hl))

theorem dfsOrder_head (adj : ℕ → List ℕ) (f : ℕ) (c : ℕ) :
    dfsOrder adj (f + 1) [] [c] = c :: dfsOrder adj f [c] (adj c ++ []) := by
  rw [dfsOrder]
  rw [if_neg (List.not_mem_nil c)]

theorem filter_unvisited_drop (x : ℕ) (visited : List ℕ) (hxv : x ∉ visited) :
    ∀ l : List ℕ, l.Nodup → x ∈ l →
      (l.filter (fun i => decide (i ∉ visited))).length =
        (l.filter (fun i => decide (i ∉ x :: visited))).length + 1 := by
  intro l
  induction l with
  | nil => intro _ hx; cases hx
  | cons a t ih =>
    intro hnd hx
    obtain ⟨hat, hndt⟩ := List.nodup_cons.mp hnd
    by_cases hax : a = x
    · subst hax
      have hP : decide (a ∉ visited) = true := decide_eq_true hxv
      have hQ : decide (a ∉ a :: visited) = false :=
        decide_eq_false (fun hcon => hcon (List.mem_cons_self a visited))
      have htails : t.filter (fun i => decide (i ∉ visited)) =
          t.filter (fun i => decide (i ∉ a :: visited)) := by
        apply List.filter_congr
        intro i hi
        apply decide_eq_decide.mpr
        constructor
        · intro hni hcon
          rcases List.mem_cons.mp hcon with h | h
          · exact hat (h ▸ hi)
          · exact hni h
        · intro hni hcon
          exact hni (List.mem_cons_of_mem a hcon)
      rw [List.filter_cons, List.filter_cons, hP, hQ, if_pos rfl,
        if_neg Bool.false_ne_true, htails, List.length_cons]
    · have hxt : x ∈ t := by
        rcases List.mem_cons.mp hx with h | h
        · exact absurd h.symm hax
        · exact h
      have hih := ih hndt hxt
      have hhead : decide (a ∉ visited) = decide (a ∉ x :: visited) := by
        apply decide_eq_decide.mpr
        constructor
        · intro hni hcon
          rcases List.mem_cons.mp hcon with h | h
          · exact hax h
          · exact hni h
        · intro hni hcon
          exact hni (List.mem_cons_of_mem x hcon)
      rw [List.filter_cons, List.filter_cons, ← hhead]
      cases hPa : decide (a ∉ visited) with
      | false =>
        rw [if_neg Bool.false_ne_true, if_neg Bool.false_ne_true]
        exact hih
      | true =>
        rw [if_pos rfl, if_pos rfl, List.length_cons, List.length_cons, hih]

theorem unvisited_succ (n x : ℕ) (visited : List ℕ) (hx : x < n)
    (hxv : x ∉ visited) :
    unvisitedCount n visited = unvisitedCount n (x :: visited) + 1 := by
  unfold unvisitedCount
  exact filter_unvisited_drop x visited hxv (List.range n) (List.nodup_range n)
    (List.mem_range.mpr hx)

theorem unvisited_nil (n : ℕ) : unvisitedCount n [] = n := by
  unfold unvisitedCount
  have hfilt : ∀ l : List ℕ,
      l.filter (fun i => decide (i ∉ ([] : List ℕ))) = l := by
    intro l
    induction l with
    | nil => rfl
    | cons a t ih =>
      rw [List.filter_cons]
      simp [ih]
  rw [hfilt, List.length_range]

theorem treeAdj_mem_lt (parents : List ℤ) (n x y : ℕ)
    (hy : y ∈ treeAdj parents n x) : y < n :=
  List.mem_range.mp (List.mem_filter.mp hy).1

theorem treeAdj_length_le (parents : List ℤ) (n x : ℕ) :
    (treeAdj parents n x).length ≤ n := by
  calc (treeAdj parents n x).length ≤ (List.range n).length :=
        List.length_filter_le _ _
    _ = n := List.length_range n

theorem dfsOrder_complete (n : ℕ) (adj : ℕ → List ℕ)
    (hadj : ∀ x y, y ∈ adj x → y < n)
    (hadjlen : ∀ x, (adj x).length ≤ n) :
    ∀ (fuel : ℕ) (visited stack : List ℕ),
      (∀ y ∈ stack, y < n) →
      stack.length + unvisitedCount n visited * (n + 1) ≤ fuel →
      (∀ x ∈ stack, x ∈ visited ∨ x ∈ dfsOrder adj fuel visited stack) ∧
      (∀ x ∈ dfsOrder adj fuel visited stack, ∀ y ∈ adj x,
        y ∈ visited ∨ y ∈ dfsOrder adj fuel visited stack) := by
  intro fuel
  induction fuel with
  | zero =>
    intro visited stack hsub hfuel
    have hstack : stack = [] := by
      have hlen : stack.length = 0 := by omega
      exact List.length_eq_zero.mp hlen
    subst hstack
    rw [dfsOrder]
    exact ⟨fun x hx => absurd hx (List.not_mem_nil x),
      fun x hx => absurd hx (List.not_mem_nil x)⟩
  | succ f ih =>
    intro visited stack hsub hfuel
    cases stack with
    | nil =>
      rw [dfsOrder]
      exact ⟨fun x hx => absurd hx (List.not_mem_nil x),
        fun x hx => absurd hx (List.not_mem_nil x)⟩
    | cons x st =>
      by_cases hx : x ∈ visited
      · have hstep : dfsOrder adj (f + 1) visited (x :: st) =
            dfsOrder adj f visited st := by
          rw [dfsOrder, if_pos hx]
        have hfuel2 : st.length + unvisitedCount n visited * (n + 1) ≤ f := by
          rw [List.length_cons] at hfuel
          omega
        obtain ⟨P1, P2⟩ := ih visited st
          (fun y hy => hsub y (List.mem_cons_of_mem x hy)) hfuel2
        rw [hstep]
        refine ⟨?_, P2⟩
        intro z hz
        rcases List.mem_cons.mp hz with hh | hmem
        · exact Or.inl (by rw [hh]; exact hx)
        · exact P1 z hmem
      · have hstep : dfsOrder adj (f + 1) visited (x :: st) =
            x :: dfsOrder adj f (x :: visited) (adj x ++ st) := by
          rw [dfsOrder, if_neg hx]
        have hxn : x < n := hsub x (List.mem_cons_self x st)
        have huv : unvisitedCount n visited =
            unvisitedCount n (x :: visited) + 1 :=
          unvisited_succ n x visited hxn hx
        have hfuel2 : (adj x ++ st).length +
            unvisitedCount n (x :: visited) * (n + 1) ≤ f := by
          rw [List.length_append]
          have h1 := hadjlen x
          rw [List.length_cons, huv] at hfuel
          have h2 : (unvisitedCount n (x :: visited) + 1) * (n + 1) =
              unvisitedCount n (x :: visited) * (n + 1) + (n + 1) := by ring
          omega
        have hsub2 : ∀ y ∈ adj x ++ st, y < n := by
          intro y hy
          rcases List.mem_append.mp hy with h | h
          · exact hadj x y h
          · exact hsub y (List.mem_cons_of_mem x h)
        obtain ⟨P1, P2⟩ := ih (x :: visited) (adj x ++ st) hsub2 hfuel2
        rw [hstep]
        constructor
        · intro z hz
          rcases List.mem_cons.mp hz with hh | hmem
          · exact Or.inr (by rw [hh]; exact List.mem_cons_self x _)
          · rcases P1 z (List.mem_append_right _ hmem) with hv | ho
            · rcases List.mem_cons.mp hv with hh2 | hv2
              · exact Or.inr (by rw [hh2]; exact List.mem_cons_self x _)
              · exact Or.inl hv2
            · exact Or.inr (List.mem_cons_of_mem x ho)
        · intro z hz y hy
          rcases List.mem_cons.mp hz with hh | hmem
          · subst hh
            rcases P1 y (List.mem_append_left _ hy) with hv | ho
            · rcases List.mem_cons.mp hv with hh2 | hv2
              · exact Or.inr (by rw [hh2]; exact List.mem_cons_self z _)
              · exact Or.inl hv2
            · exact Or.inr (List.mem_cons_of_mem z ho)
          · rcases P2 z hmem y hy with hv | ho
            · rcases List.mem_cons.mp hv with hh2 | hv2
              · exact Or.inr (by rw [hh2]; exact List.mem_cons_self x _)
              · exact Or.inl hv2
            · exact Or.inr (List.mem_cons_of_mem x ho)

/-- Claim C9.  The draw order — the reverse of the depth-first traversal of
the reconstructed spanning tree started at the center — ends with the center
(which moreover occurs nowhere else), every non-center node in it occurs
before the node recorded as its spanning-tree predecessor, and every node of
the session appears in it.  The hypotheses are the Dijkstra convention that
the center's own predecessor entry is negative (`-9999`) and that `parents`
is a spanning tree rooted at the center (witnessed by a depth function
decreasing towards the root). -/
theorem claim9_draw_order (parents : List ℤ) (c n : ℕ) (depth : ℕ → ℕ)
    (hroot : parents.getD c 0 < 0) (hc : c < n)
    (htree : ∀ i, i < n → i ≠ c → 0 ≤ parents.getD i 0 ∧
      parentOf parents i < n ∧ depth (parentOf parents i) < depth i) :
    (calculate_draw_order parents c n).getLast? = some c ∧
    (∀ l1 l2, calculate_draw_order parents c n = l1 ++ c :: l2 → l2 = []) ∧
    (∀ l1 j l2, calculate_draw_order parents c n = l1 ++ j :: l2 → j ≠ c →
      (parents.getD j 0).toNat ∈ l2) ∧
    (∀ j, j < n → j ∈ calculate_draw_order parents c n) := by
  obtain ⟨f, hf⟩ : ∃ f, (n + 1) * (n + 1) = f + 1 :=
    ⟨(n + 1) * (n + 1) - 1, by
      have h1 : 1 ≤ (n + 1) * (n + 1) := Nat.one_le_iff_ne_zero.mpr (by simp)
      omega⟩
  have hhead : dfsOrder (treeAdj parents n) ((n + 1) * (n + 1)) [] [c] =
      c :: dfsOrder (treeAdj parents n) f [c]
        (treeAdj parents n c ++ []) := by
    rw [hf]
    exact dfsOrder_head (treeAdj parents n) f c
  have hcnotin : c ∉ dfsOrder (treeAdj parents n) f [c]
      (treeAdj parents n c ++ []) := by
    intro hcon
    exact dfsOrder_not_visited (treeAdj parents n) _ [c] _ c hcon
      (List.mem_cons_self c [])
  refine ⟨?_, ?_, ?_, ?_⟩
  · rw [calculate_draw_order, hhead]
    rw [List.reverse_cons]
    exact List.getLast?_concat _
  · intro l1 l2 heq
    rw [calculate_draw_order] at heq
    have hdfs : dfsOrder (treeAdj parents n) ((n + 1) * (n + 1)) [] [c] =
        l2.reverse ++ c :: l1.reverse := by
      rw [← List.reverse_reverse (dfsOrder (treeAdj parents n)
        ((n + 1) * (n + 1)) [] [c])]
      rw [heq]
      rw [List.reverse_append, List.reverse_cons, List.append_assoc]
      simp
    rw [hhead] at hdfs
    cases hrev : l2.reverse with
    | nil =>
      have : l2 = [] := by
        rw [← List.reverse_reverse l2, hrev]
        rfl
      exact this
    | cons y ys =>
      exfalso
      rw [hrev] at hdfs
      injection hdfs with h1 h2
      apply hcnotin
      rw [h2]
      show c ∈ ys ++ (c :: l1.reverse)
      exact List.mem_append_right ys (List.mem_cons_self c l1.reverse)
  · intro l1 j l2 heq hjc
    rw [calculate_draw_order] at heq
    have hdfs : dfsOrder (treeAdj parents n) ((n + 1) * (n + 1)) [] [c] =
        l2.reverse ++ j :: l1.reverse := by
      rw [← List.reverse_reverse (dfsOrder (treeAdj parents n)
        ((n + 1) * (n + 1)) [] [c])]
      rw [heq]
      rw [List.reverse_append, List.reverse_cons, List.append_assoc]
      simp
    have hinv0 : ∀ y ∈ [c], y ∈ ([] : List ℕ) ∨ y = c ∨
        (parents.getD y 0).toNat ∈ ([] : List ℕ) := by
      intro y hy
      rcases List.mem_cons.mp hy with hh | hmem
      · exact Or.inr (Or.inl hh)
      · cases hmem
    rcases dfsOrder_parent_emitted parents c n hroot ((n + 1) * (n + 1)) [] [c]
      l2.reverse l1.reverse j hinv0 hdfs with hjec | hv | hl
    · exact absurd hjec hjc
    · cases hv
    · exact List.mem_reverse.mp hl
  · intro j hj
    have hfuel0 : ([c] : List ℕ).length +
        unvisitedCount n [] * (n + 1) ≤ (n + 1) * (n + 1) := by
      rw [unvisited_nil]
      have h1 : (n + 1) * (n + 1) = n * (n + 1) + (n + 1) := by ring
      simp only [List.length_cons, List.length_nil]
      omega
    obtain ⟨P1, P2⟩ := dfsOrder_complete n (treeAdj parents n)
      (fun x y hy => treeAdj_mem_lt parents n x y hy)
      (fun x => treeAdj_length_le parents n x)
      ((n + 1) * (n + 1)) [] [c]
      (fun y hy => by
        rcases List.mem_cons.mp hy with hh | hm
        · rw [hh]; exact hc
        · cases hm)
      hfuel0
    have hcin : c ∈ dfsOrder (treeAdj parents n)
        ((n + 1) * (n + 1)) [] [c] := by
      rcases P1 c (List.mem_cons_self c []) with hv | ho
      · cases hv
      · exact ho
    have hstep : ∀ i, i < n → i ≠ c →
        parentOf parents i ∈ dfsOrder (treeAdj parents n)
          ((n + 1) * (n + 1)) [] [c] →
        i ∈ dfsOrder (treeAdj parents n) ((n + 1) * (n + 1)) [] [c] := by
      intro i hi hic hp
      have hmemadj : i ∈ treeAdj parents n (parentOf parents i) := by
        apply List.mem_filter.mpr
        refine ⟨List.mem_range.mpr hi, ?_⟩
        apply decide_eq_true
        exact Or.inl ⟨(htree i hi hic).1, rfl⟩
      rcases P2 (parentOf parents i) hp i hmemadj with hv | ho
      · cases hv
      · exact ho
    have hdind : ∀ (d : ℕ) (i : ℕ), depth i ≤ d → i < n →
        i ∈ dfsOrder (treeAdj parents n) ((n + 1) * (n + 1)) [] [c] := by
      intro d
      induction d with
      | zero =>
        intro i hdi hin
        by_cases hic : i = c
        · rw [hic]; exact hcin
        · exfalso
          have hlt := (htree i hin hic).2.2
          omega
      | succ d ihd =>
        intro i hdi hin
        by_cases hic : i = c
        · rw [hic]; exact hcin
        · refine hstep i hin hic (ihd (parentOf parents i) ?_ ?_)
          · have hlt := (htree i hin hic).2.2
            omega
          · exact (htree i hin hic).2.1
    rw [calculate_draw_order]
    exact List.mem_reverse.mpr (hdind (depth j) j (Nat.le_refl _) hj)

/-! ## Claim C3 — composition of homographies along the spanning tree -/

theorem mono_refl (t : List (Option M3)) : Mono t t := fun _ _ h => h

theorem mono_trans {t1 t2 t3 : List (Option M3)} (h1 : Mono t1 t2)
    (h2 : Mono t2 t3) : Mono t1 t3 :=
  fun i v hv => h2 i v (h1 i v hv)

theorem chain_head {c n : ℕ} {parents : List ℤ} {total : List (Option M3)}
    {q : ℕ} {rest : List ℕ} (h : ChainTo c n parents total (q :: rest)) :
    q < n ∧ q ≠ c ∧ total.getD q none = none := by
  cases rest with
  | nil => exact h
  | cons q2 rest2 => exact ⟨h.1, h.2.1, h.2.2.1⟩

theorem chain_tail {c n : ℕ} {parents : List ℤ} {total : List (Option M3)}
    {q q2 : ℕ} {rest : List ℕ}
    (h : ChainTo c n parents total (q :: q2 :: rest)) :
    parentOf parents q2 = q ∧ ChainTo c n parents total (q2 :: rest) :=
  ⟨h.2.2.2.1, h.2.2.2.2⟩

theorem chain_depth_lt {c n : ℕ} {parents : List ℤ} {depth : ℕ → ℕ}
    (htree : ∀ i, i < n → i ≠ c → 0 ≤ parents.getD i 0 ∧
      parentOf parents i < n ∧ depth (parentOf parents i) < depth i) :
    ∀ (rest : List ℕ) (q : ℕ) (total : List (Option M3)),
      ChainTo c n parents total (q :: rest) →
      ∀ r ∈ rest, depth q < depth r := by
  intro rest
  induction rest with
  | nil => intro q total _ r hr; cases hr
  | cons q2 rest2 ih =>
    intro q total hch r hr
    obtain ⟨hpq2, hch2⟩ := chain_tail hch
    obtain ⟨hq2n, hq2c, _⟩ := chain_head hch2
    have hq2 : depth q < depth q2 := by
      have := (htree q2 hq2n hq2c).2.2
      rwa [hpq2] at this
    rcases List.mem_cons.mp hr with hh | hmem
    · rw [hh]; exact hq2
    · exact lt_trans hq2 (ih q2 total hch2 r hmem)

theorem chain_set_of_notmem {c n : ℕ} {parents : List ℤ} :
    ∀ (path : List ℕ) (q : ℕ) (v : Option M3) (total : List (Option M3)),
      q ∉ path → ChainTo c n parents total path →
      ChainTo c n parents (total.set q v) path := by
  intro path
  induction path with
  | nil => intro q v total _ _; trivial
  | cons p rest ih =>
    intro q v total hnm hch
    have hpq : q ≠ p := fun h => hnm (h ▸ List.mem_cons_self p rest)
    have hrest : q ∉ rest := fun h => hnm (List.mem_cons_of_mem p h)
    obtain ⟨hpn, hpc, hpnone⟩ := chain_head hch
    cases rest with
    | nil =>
      exact ⟨hpn, hpc, by rw [getD_set_ne total v none hpq]; exact hpnone⟩
    | cons q2 rest2 =>
      obtain ⟨hpq2, hch2⟩ := chain_tail hch
      exact ⟨hpn, hpc, by rw [getD_set_ne total v none hpq]; exact hpnone,
        hpq2, ih q v total hrest hch2⟩

theorem inv_write {c n : ℕ} {parents : List ℤ} {nextH : List M3}
    {depth : ℕ → ℕ}
    (htree : ∀ i, i < n → i ≠ c → 0 ≤ parents.getD i 0 ∧
      parentOf parents i < n ∧ depth (parentOf parents i) < depth i)
    {total : List (Option M3)} {counts : List ℕ} {q : ℕ} {w : M3}
    (hInv : TotalInv c parents nextH n total counts)
    (hq : q < n) (hqc : q ≠ c) (hnone : total.getD q none = none)
    (hpar : total.getD (parentOf parents q) none = some w) :
    TotalInv c parents nextH n
      (total.set q (some ((nextH.getD q m3id).mul w)))
      (counts.set q (counts.getD q 0 + 1)) ∧
    Mono total (total.set q (some ((nextH.getD q m3id).mul w))) := by
  obtain ⟨hlen, hclen, hcent, hrec, hcnt⟩ := hInv
  have hqlen : q < total.length := by rw [hlen]; exact hq
  have hqclen : q < counts.length := by rw [hclen]; exact hq
  have hparq : parentOf parents q ≠ q := by
    intro hcon
    have := (htree q hq hqc).2.2
    rw [hcon] at this
    exact lt_irrefl _ this
  have hmono : Mono total
      (total.set q (some ((nextH.getD q m3id).mul w))) := by
    intro i v hv
    have hiq : i ≠ q := by
      intro hcon
      rw [hcon, hnone] at hv
      exact Option.noConfusion hv
    rw [getD_set_ne total _ none (Ne.symm hiq)]
    exact hv
  refine ⟨⟨by rw [List.length_set]; exact hlen,
    by rw [List.length_set]; exact hclen, ?_, ?_, ?_⟩, hmono⟩
  · rw [getD_set_ne total _ none hqc]
    exact hcent
  · intro i hi hic v hv
    by_cases hiq : i = q
    · subst hiq
      rw [getD_set_eq total i _ none hqlen] at hv
      injection hv with hv
      refine ⟨w, ?_, hv.symm⟩
      rw [getD_set_ne total _ none (Ne.symm hparq)]
      exact hpar
    · rw [getD_set_ne total _ none (fun h => hiq h.symm)] at hv
      obtain ⟨w2, hw2, hmul⟩ := hrec i hi hic v hv
      refine ⟨w2, ?_, hmul⟩
      have hpiq : q ≠ parentOf parents i := by
        intro hcon
        rw [← hcon, hnone] at hw2
        exact Option.noConfusion hw2
      rw [getD_set_ne total _ none hpiq]
      exact hw2
  · intro i hi
    by_cases hiq : i = q
    · subst hiq
      rw [getD_set_eq counts i _ 0 hqclen, getD_set_eq total i _ none hqlen]
      rw [hcnt i hi, hnone]
      rfl
    · rw [getD_set_ne counts _ 0 (fun h => hiq h.symm),
        getD_set_ne total _ none (fun h => hiq h.symm)]
      exact hcnt i hi

theorem innerLoop_nil (c : ℕ) (parents : List ℤ) (nextH : List M3)
    (fuel : ℕ) (total : List (Option M3)) (counts : List ℕ) :
    innerLoop c parents nextH fuel [] total counts = (total, counts) := by
  cases fuel with
  | zero => rfl
  | succ f => rfl

theorem innerLoop_descend {c n : ℕ} {parents : List ℤ} {nextH : List M3}
    {depth : ℕ → ℕ}
    (htree : ∀ i, i < n → i ≠ c → 0 ≤ parents.getD i 0 ∧
      parentOf parents i < n ∧ depth (parentOf parents i) < depth i) :
    ∀ (path : List ℕ) (fuel : ℕ) (total : List (Option M3)) (counts : List ℕ),
      ChainTo c n parents total path →
      TotalInv c parents nextH n total counts →
      (∀ q rest, path = q :: rest →
        (total.getD (parentOf parents q) none).isSome) →
      path.length ≤ fuel →
      TotalInv c parents nextH n
        (innerLoop c parents nextH fuel path total counts).1
        (innerLoop c parents nextH fuel path total counts).2 ∧
      Mono total (innerLoop c parents nextH fuel path total counts).1 ∧
      (∀ q ∈ path,
        ((innerLoop c parents nextH fuel path total counts).1.getD q
          none).isSome) := by
  intro path
  induction path with
  | nil =>
    intro fuel total counts _ hInv _ _
    rw [innerLoop_nil]
    exact ⟨hInv, mono_refl total, fun q hq => absurd hq (List.not_mem_nil q)⟩
  | cons q rest ih =>
    intro fuel total counts hch hInv hpar hlen
    cases fuel with
    | zero =>
      rw [List.length_cons] at hlen
      omega
    | succ f =>
      obtain ⟨hqn, hqc, hqnone⟩ := chain_head hch
      have hparS := hpar q rest rfl
      obtain ⟨w, hw⟩ := Option.isSome_iff_exists.mp hparS
      have hw2 : total.getD ((parents.getD q 0).toNat) none = some w := hw
      have hstep : innerLoop c parents nextH (f + 1) (q :: rest) total counts =
          innerLoop c parents nextH f rest
            (total.set q (some ((nextH.getD q m3id).mul w)))
            (counts.set q (counts.getD q 0 + 1)) := by
        simp only [innerLoop]
        rw [if_neg hqc, hw2]
        rw [if_neg (by simp)]
        rw [Option.getD_some]
      rw [hstep]
      obtain ⟨hInv2, hmono1⟩ := inv_write htree hInv hqn hqc hqnone hw
      have hsetq : (total.set q (some ((nextH.getD q m3id).mul w))).getD q
          none = some ((nextH.getD q m3id).mul w) :=
        getD_set_eq total q _ none (by rw [hInv.1]; exact hqn)
      have hch2 : ChainTo c n parents
          (total.set q (some ((nextH.getD q m3id).mul w))) rest := by
        cases rest with
        | nil => trivial
        | cons q2 rest2 =>
          obtain ⟨hpq2, hchq2⟩ := chain_tail hch
          have hnotmem : q ∉ q2 :: rest2 := by
            intro hmem
            exact lt_irrefl (depth q)
              (chain_depth_lt htree (q2 :: rest2) q total hch q hmem)
          exact chain_set_of_notmem (q2 :: rest2) q _ total hnotmem hchq2
      have hpar2 : ∀ p prest, rest = p :: prest →
          ((total.set q (some ((nextH.getD q m3id).mul w))).getD
            (parentOf parents p) none).isSome := by
        intro p prest hrest
        subst hrest
        obtain ⟨hpq2, _⟩ := chain_tail hch
        rw [hpq2, hsetq]
        rfl
      have hlen2 : rest.length ≤ f := by
        rw [List.length_cons] at hlen
        omega
      obtain ⟨hInvF, hmonoF, hallF⟩ := ih f _ _ hch2 hInv2 hpar2 hlen2
      refine ⟨hInvF, mono_trans hmono1 hmonoF, ?_⟩
      intro p hp
      rcases List.mem_cons.mp hp with hh | hmem
      · subst hh
        rw [hmonoF p _ hsetq]
        rfl
      · exact hallF p hmem

theorem innerLoop_ascend {c n : ℕ} {parents : List ℤ} {nextH : List M3}
    {depth : ℕ → ℕ}
    (htree : ∀ i, i < n → i ≠ c → 0 ≤ parents.getD i 0 ∧
      parentOf parents i < n ∧ depth (parentOf parents i) < depth i) :
    ∀ (d : ℕ) (path : List ℕ) (fuel : ℕ) (total : List (Option M3))
      (counts : List ℕ),
      ChainTo c n parents total path →
      TotalInv c parents nextH n total counts →
      (∀ q rest, path = q :: rest → depth q ≤ d) →
      2 * d + path.length + 1 ≤ fuel →
      TotalInv c parents nextH n
        (innerLoop c parents nextH fuel path total counts).1
        (innerLoop c parents nextH fuel path total counts).2 ∧
      Mono total (innerLoop c parents nextH fuel path total counts).1 ∧
      (∀ q ∈ path,
        ((innerLoop c parents nextH fuel path total counts).1.getD q
          none).isSome) := by
  intro d
  induction d with
  | zero =>
    intro path fuel total counts hch hInv hdq hfuel
    cases path with
    | nil =>
      rw [innerLoop_nil]
      exact ⟨hInv, mono_refl total, fun q hq => absurd hq (List.not_mem_nil q)⟩
    | cons q rest =>
      obtain ⟨hqn, hqc, hqnone⟩ := chain_head hch
      by_cases hps : (total.getD (parentOf parents q) none).isSome
      · refine innerLoop_descend htree (q :: rest) fuel total counts hch hInv
          ?_ (by omega)
        intro y yrest hy
        injection hy with h1 _
        rw [← h1]
        exact hps
      · exfalso
        have hd0 : depth q ≤ 0 := hdq q rest rfl
        have := (htree q hqn hqc).2.2
        omega
  | succ d ihd =>
    intro path fuel total counts hch hInv hdq hfuel
    cases path with
    | nil =>
      rw [innerLoop_nil]
      exact ⟨hInv, mono_refl total, fun q hq => absurd hq (List.not_mem_nil q)⟩
    | cons q rest =>
      obtain ⟨hqn, hqc, hqnone⟩ := chain_head hch
      by_cases hps : (total.getD (parentOf parents q) none).isSome
      · refine innerLoop_descend htree (q :: rest) fuel total counts hch hInv
          ?_ (by omega)
        intro y yrest hy
        injection hy with h1 _
        rw [← h1]
        exact hps
      · cases fuel with
        | zero => exact absurd hfuel (by omega)
        | succ f =>
          have hnone3 : total.getD (parentOf parents q) none = none :=
            Option.not_isSome_iff_eq_none.mp hps
          have hnone2 : (total.getD ((parents.getD q 0).toNat) none).isNone =
              true := by
            show (total.getD (parentOf parents q) none).isNone = true
            rw [hnone3]
            rfl
          have hstep : innerLoop c parents nextH (f + 1) (q :: rest) total
              counts =
              innerLoop c parents nextH f
                ((parents.getD q 0).toNat :: q :: rest) total counts := by
            simp only [innerLoop]
            rw [if_neg hqc, if_pos hnone2]
          rw [hstep]
          have hpn : parentOf parents q < n := (htree q hqn hqc).2.1
          have hpc : parentOf parents q ≠ c := by
            intro hcon
            have hcent := hInv.2.2.1
            rw [← hcon] at hcent
            rw [hnone3] at hcent
            exact Option.noConfusion hcent
          have hch3 : ChainTo c n parents total
              (parentOf parents q :: q :: rest) :=
            ⟨hpn, hpc, hnone3, rfl, hch⟩
          have hdq3 : ∀ y yrest,
              parentOf parents q :: q :: rest = y :: yrest → depth y ≤ d := by
            intro y yrest hy
            injection hy with h1 _
            rw [← h1]
            have h5 := (htree q hqn hqc).2.2
            have h6 := hdq q rest rfl
            omega
          have hfuel3 : 2 * d + (parentOf parents q :: q :: rest).length + 1 ≤
              f := by
            rw [List.length_cons, List.length_cons]
            rw [List.length_cons] at hfuel
            omega
          obtain ⟨hI, hM, hA⟩ := ihd (parentOf parents q :: q :: rest) f total
            counts hch3 hInv hdq3 hfuel3
          exact ⟨hI, hM, fun y hy =>
            hA y (List.mem_cons_of_mem (parentOf parents q) hy)⟩

theorem mono_tail {a b : Option M3} {t t2 : List (Option M3)}
    (h : Mono (a :: t) (b :: t2)) : Mono t t2 := by
  intro i v hv
  have := h (i + 1) v (by rw [List.getD_cons_succ]; exact hv)
  rwa [List.getD_cons_succ] at this

theorem mono_head {a b : Option M3} {t t2 : List (Option M3)}
    (h : Mono (a :: t) (b :: t2)) : ∀ v, a = some v → b = some v := by
  intro v hv
  have := h 0 v (by rw [List.getD_cons_zero]; exact hv)
  rwa [List.getD_cons_zero] at this

theorem noneCount_le_of_mono :
    ∀ (l l2 : List (Option M3)), l.length = l2.length → Mono l l2 →
      noneCount l2 ≤ noneCount l := by
  intro l
  induction l with
  | nil =>
    intro l2 hlen _
    have : l2 = [] := List.eq_nil_of_length_eq_zero hlen.symm
    rw [this]
  | cons a t ih =>
    intro l2 hlen hm
    cases l2 with
    | nil => simp at hlen
    | cons b t2 =>
      have hlen2 : t.length = t2.length := by
        simp only [List.length_cons] at hlen
        omega
      have hrec := ih t2 hlen2 (mono_tail hm)
      unfold noneCount at hrec ⊢
      rw [List.countP_cons, List.countP_cons]
      cases a with
      | some v =>
        have hb : b = some v := mono_head hm v rfl
        rw [hb]
        omega
      | none =>
        have hx : (if b.isNone = true then 1 else 0) ≤ 1 := by
          split
          · exact le_refl 1
          · omega
        have hy : (if (none : Option M3).isNone = true then 1 else 0) = 1 :=
          rfl
        omega

theorem noneCount_lt_of_flip :
    ∀ (l l2 : List (Option M3)), l.length = l2.length → Mono l l2 →
      ∀ i, i < l.length → l.getD i none = none →
      (l2.getD i none).isSome → noneCount l2 < noneCount l := by
  intro l
  induction l with
  | nil => intro l2 _ _ i hi; cases hi
  | cons a t ih =>
    intro l2 hlen hm i hi hnone hsome
    cases l2 with
    | nil => simp at hlen
    | cons b t2 =>
      have hlen2 : t.length = t2.length := by
        simp only [List.length_cons] at hlen
        omega
      have hletail := noneCount_le_of_mono t t2 hlen2 (mono_tail hm)
      unfold noneCount at hletail ⊢
      rw [List.countP_cons, List.countP_cons]
      cases i with
      | zero =>
        rw [List.getD_cons_zero] at hnone
        rw [List.getD_cons_zero] at hsome
        obtain ⟨v, hv⟩ := Option.isSome_iff_exists.mp hsome
        rw [hnone, hv]
        have h1 : (if (none : Option M3).isNone = true then 1 else 0) = 1 :=
          rfl
        have h2 : (if (some v).isNone = true then 1 else 0) = 0 := rfl
        omega
      | succ i2 =>
        rw [List.getD_cons_succ] at hnone hsome
        have hi2 : i2 < t.length := by
          rw [List.length_cons] at hi
          omega
        have hstrict := ih t2 hlen2 (mono_tail hm) i2 hi2 hnone hsome
        unfold noneCount at hstrict
        cases a with
        | some v =>
          have hb : b = some v := mono_head hm v rfl
          rw [hb]
          omega
        | none =>
          have hx : (if b.isNone = true then 1 else 0) ≤ 1 := by
            split
            · exact le_refl 1
            · omega
          have hy : (if (none : Option M3).isNone = true then 1 else 0) = 1 :=
            rfl
          omega

theorem firstNoneIdx_none_isSome :
    ∀ (l : List (Option M3)), firstNoneIdx l = none →
      ∀ j, j < l.length → (l.getD j none).isSome := by
  intro l
  induction l with
  | nil => intro _ j hj; cases hj
  | cons a t ih =>
    intro h j hj
    cases a with
    | none =>
      rw [firstNoneIdx] at h
      exact Option.noConfusion h
    | some v =>
      rw [firstNoneIdx] at h
      have ht : firstNoneIdx t = none := by
        cases hft : firstNoneIdx t with
        | none => rfl
        | some k => rw [hft] at h; exact Option.noConfusion h
      cases j with
      | zero => rfl
      | succ j2 =>
        rw [List.getD_cons_succ]
        exact ih ht j2 (by rw [List.length_cons] at hj; omega)

theorem firstNoneIdx_some_spec :
    ∀ (l : List (Option M3)) (i : ℕ), firstNoneIdx l = some i →
      i < l.length ∧ l.getD i none = none := by
  intro l
  induction l with
  | nil =>
    intro i h
    rw [firstNoneIdx] at h
    exact Option.noConfusion h
  | cons a t ih =>
    intro i h
    cases a with
    | none =>
      rw [firstNoneIdx] at h
      injection h with h1
      rw [← h1]
      exact ⟨by simp, rfl⟩
    | some v =>
      rw [firstNoneIdx] at h
      cases hft : firstNoneIdx t with
      | none => rw [hft] at h; exact Option.noConfusion h
      | some k =>
        rw [hft] at h
        have h2 : i = k + 1 := by
          injection h with h3
          try exact h3.symm
          try rfl
        obtain ⟨hk, hkn⟩ := ih k hft
        constructor
        · rw [List.length_cons]; omega
        · rw [h2, List.getD_cons_succ]; exact hkn

theorem outerLoop_ok {c n : ℕ} {parents : List ℤ} {nextH : List M3}
    {depth : ℕ → ℕ}
    (htree : ∀ i, i < n → i ≠ c → 0 ≤ parents.getD i 0 ∧
      parentOf parents i < n ∧ depth (parentOf parents i) < depth i)
    (hdep : ∀ i, i < n → depth i < n) :
    ∀ (fuel : ℕ) (total : List (Option M3)) (counts : List ℕ),
      TotalInv c parents nextH n total counts →
      noneCount total < fuel →
      TotalInv c parents nextH n
        (outerLoop c parents nextH fuel total counts).1
        (outerLoop c parents nextH fuel total counts).2 ∧
      (∀ j, j < n →
        ((outerLoop c parents nextH fuel total counts).1.getD j
          none).isSome) := by
  intro fuel
  induction fuel with
  | zero => intro total counts _ hcnt; exact absurd hcnt (by omega)
  | succ f ih =>
    intro total counts hInv hcnt
    cases hfn : firstNoneIdx total with
    | none =>
      have hstep : outerLoop c parents nextH (f + 1) total counts =
          (total, counts) := by
        simp only [outerLoop, hfn]
      rw [hstep]
      refine ⟨hInv, ?_⟩
      intro j hj
      exact firstNoneIdx_none_isSome total hfn j (by rw [hInv.1]; exact hj)
    | some i =>
      obtain ⟨hilen, hinone⟩ := firstNoneIdx_some_spec total i hfn
      have hin : i < n := by rw [← hInv.1]; exact hilen
      have hic : i ≠ c := by
        intro hcon
        have hcent := hInv.2.2.1
        rw [← hcon] at hcent
        rw [hinone] at hcent
        exact Option.noConfusion hcent
      have hch : ChainTo c n parents total [i] := ⟨hin, hic, hinone⟩
      have hdI : ∀ y yrest, ([i] : List ℕ) = y :: yrest →
          depth y ≤ n - 1 := by
        intro y yrest hy
        injection hy with h1 _
        rw [← h1]
        have := hdep i hin
        omega
      have hfuelI : 2 * (n - 1) + ([i] : List ℕ).length + 1 ≤
          2 * total.length + 2 := by
        simp only [List.length_cons, List.length_nil]
        rw [hInv.1]
        omega
      obtain ⟨hI2, hM2, hA2⟩ := innerLoop_ascend htree (n - 1) [i]
        (2 * total.length + 2) total counts hch hInv hdI hfuelI
      have hstep : outerLoop c parents nextH (f + 1) total counts =
          outerLoop c parents nextH f
            (innerLoop c parents nextH (2 * total.length + 2) [i] total
              counts).1
            (innerLoop c parents nextH (2 * total.length + 2) [i] total
              counts).2 := by
        simp only [outerLoop, hfn]
      rw [hstep]
      have hflip := hA2 i (List.mem_cons_self i [])
      have hlen12 : total.length =
          (innerLoop c parents nextH (2 * total.length + 2) [i] total
            counts).1.length := by
        rw [hI2.1]
        exact hInv.1
      have hdec : noneCount
          (innerLoop c parents nextH (2 * total.length + 2) [i] total
            counts).1 < noneCount total :=
        noneCount_lt_of_flip total _ hlen12 hM2 i hilen hinone hflip
      exact ih _ _ hI2 (by omega)

theorem calcNextH_center (s : Session) (est : Est) (c : ℕ) :
    ∀ (l : List ℤ) (k : ℕ) (r : List M3),
      calcNextH s est c k l = .ok r →
      (∀ j, j < l.length → (k + j = c ∨ l.getD j 0 < 0) →
        r.getD j m3id = m3id) ∧ r.length = l.length := by
  intro l
  induction l with
  | nil =>
    intro k r h
    simp only [calcNextH] at h
    injection h with h1
    rw [← h1]
    exact ⟨fun j hj _ => absurd hj (by simp), rfl⟩
  | cons dst rest ih =>
    intro k r h
    simp only [calcNextH] at h
    by_cases hcen : dst < 0 ∨ k = c
    · rw [if_pos hcen] at h
      cases hrec : calcNextH s est c (k + 1) rest with
      | error e => rw [hrec] at h; exact Except.noConfusion h
      | ok t =>
        rw [hrec] at h
        injection h with h1
        obtain ⟨iht, ihlen⟩ := ih (k + 1) t hrec
        rw [← h1]
        constructor
        · intro j hj hcond
          cases j with
          | zero => rfl
          | succ j2 =>
            rw [List.getD_cons_succ]
            apply iht j2 (by rw [List.length_cons] at hj; omega)
            rcases hcond with hc1 | hc2
            · left; omega
            · right; rwa [List.getD_cons_succ] at hc2
        · rw [List.length_cons, List.length_cons, ihlen]
    · rw [if_neg hcen] at h
      split at h
      · exact Except.noConfusion h
      next ms hgm =>
        split at h
        · exact Except.noConfusion h
        next H hfh =>
          split at h
          · exact Except.noConfusion h
          next t hrec =>
            injection h with h1
            obtain ⟨iht, ihlen⟩ := ih (k + 1) t hrec
            rw [← h1]
            constructor
            · intro j hj hcond
              push_neg at hcen
              cases j with
              | zero =>
                exfalso
                rcases hcond with hc1 | hc2
                · omega
                · rw [List.getD_cons_zero] at hc2
                  exact absurd hc2 (by omega)
              | succ j2 =>
                rw [List.getD_cons_succ]
                apply iht j2 (by rw [List.length_cons] at hj; omega)
                rcases hcond with hc1 | hc2
                · left; omega
                · right; rwa [List.getD_cons_succ] at hc2
            · rw [List.length_cons, List.length_cons, ihlen]

/-- Claim C3.  Under the spanning-tree hypotheses on the predecessor array
(valid non-negative parents with a strictly decreasing depth towards the
center, depths bounded by the node count), the method
`_calculate_total_homographies` terminates with: the center's composed
transform exactly the identity matrix, every other node's composed transform
equal to its phase-one pairwise homography matrix-multiplied on the left of
its parent's composed transform, and every slot written exactly once (the
write counters all equal one). -/
theorem claim3_composition (s : Session) (est : Est) (c : ℕ)
    (parents : List ℤ) (nextH : List M3) (depth : ℕ → ℕ)
    (hc : c < parents.length)
    (hnext : calcNextH s est c 0 parents = .ok nextH)
    (htree : ∀ i, i < parents.length → i ≠ c → 0 ≤ parents.getD i 0 ∧
      parentOf parents i < parents.length ∧
      depth (parentOf parents i) < depth i)
    (hdep : ∀ i, i < parents.length → depth i < parents.length) :
    calculate_total_homographies s est c parents =
      .ok (composeTotal c parents nextH) ∧
    (composeTotal c parents nextH).1.getD c none = some m3id ∧
    (∀ i, i < parents.length → i ≠ c → ∃ w,
      (composeTotal c parents nextH).1.getD (parentOf parents i) none =
        some w ∧
      (composeTotal c parents nextH).1.getD i none =
        some ((nextH.getD i m3id).mul w)) ∧
    (∀ i, i < parents.length →
      (composeTotal c parents nextH).2.getD i 0 = 1) := by
  have hcid : nextH.getD c m3id = m3id :=
    (calcNextH_center s est c parents 0 nextH hnext).1 c hc (Or.inl (by omega))
  have hInv0 : TotalInv c parents nextH parents.length
      ((List.replicate parents.length (none : Option M3)).set c
        (some (nextH.getD c m3id)))
      ((List.replicate parents.length 0).set c 1) := by
    refine ⟨by rw [List.length_set, List.length_replicate],
      by rw [List.length_set, List.length_replicate], ?_, ?_, ?_⟩
    · exact getD_set_eq _ c _ none (by rw [List.length_replicate]; exact hc)
    · intro i hi hic v hv
      rw [getD_set_ne _ _ none (fun h => hic h.symm)] at hv
      rw [getD_replicate_lt parents.length i none none hi] at hv
      exact Option.noConfusion hv
    · intro i hi
      by_cases hiq : i = c
      · subst hiq
        rw [getD_set_eq _ i _ 0 (by rw [List.length_replicate]; exact hi),
          getD_set_eq _ i _ none (by rw [List.length_replicate]; exact hi)]
        rfl
      · rw [getD_set_ne _ _ 0 (fun h => hiq h.symm),
          getD_set_ne _ _ none (fun h => hiq h.symm),
          getD_replicate_lt parents.length i 0 0 hi,
          getD_replicate_lt parents.length i none none hi]
        rfl
  have hcnt0 : noneCount ((List.replicate parents.length
      (none : Option M3)).set c (some (nextH.getD c m3id))) <
      parents.length + 1 := by
    have h1 := List.countP_le_length
      (l := (List.replicate parents.length (none : Option M3)).set c
        (some (nextH.getD c m3id))) (fun (o : Option M3) => o.isNone)
    rw [List.length_set, List.length_replicate] at h1
    unfold noneCount
    omega
  obtain ⟨hIF, hAF⟩ := outerLoop_ok htree hdep (parents.length + 1) _ _
    hInv0 hcnt0
  have hcompose : composeTotal c parents nextH =
      outerLoop c parents nextH (parents.length + 1)
        ((List.replicate parents.length (none : Option M3)).set c
          (some (nextH.getD c m3id)))
        ((List.replicate parents.length 0).set c 1) := rfl
  have hth : calculate_total_homographies s est c parents =
      .ok (composeTotal c parents nextH) := by
    rw [calculate_total_homographies, hnext]
  rw [hcompose]
  refine ⟨by rw [← hcompose]; exact hth, ?_, ?_, ?_⟩
  · have h9 := hIF.2.2.1
    nth_rewrite 2 [hcid] at h9
    exact h9
  · intro i hi hic
    have hsome := hAF i hi
    obtain ⟨v, hv⟩ := Option.isSome_iff_exists.mp hsome
    obtain ⟨w, hw, hmul⟩ := hIF.2.2.2.1 i hi hic v hv
    exact ⟨w, hw, by rw [hv, hmul]⟩
  · intro i hi
    have hcnt := hIF.2.2.2.2 i hi
    rw [hcnt, hAF i hi]
    rfl

/-- Witness for claim C3 on the two-node spanning tree rooted at node 0,
with depth function the identity. -/
theorem claim3_witness :
    calculate_total_homographies sessionPair estConst 0 [-9999, 0] =
      .ok (composeTotal 0 [-9999, 0] [m3id, m3id]) ∧
    (composeTotal 0 [-9999, 0] [m3id, m3id]).1.getD 0 none = some m3id ∧
    (∀ i, i < ([-9999, 0] : List ℤ).length → i ≠ 0 → ∃ w,
      (composeTotal 0 [-9999, 0] [m3id, m3id]).1.getD
        (parentOf [-9999, 0] i) none = some w ∧
      (composeTotal 0 [-9999, 0] [m3id, m3id]).1.getD i none =
        some (([m3id, m3id].getD i m3id).mul w)) ∧
    (∀ i, i < ([-9999, 0] : List ℤ).length →
      (composeTotal 0 [-9999, 0] [m3id, m3id]).2.getD i 0 = 1) :=
  claim3_composition sessionPair estConst 0 [-9999, 0] [m3id, m3id]
    (fun i => i) (by decide) rfl (by decide) (by decide)

/-- Witness for claim C9 on the two-node spanning tree rooted at node 0,
with depth function the identity. -/
theorem claim9_witness :
    (calculate_draw_order [-9999, 0] 0 2).getLast? = some 0 ∧
    (∀ l1 l2, calculate_draw_order [-9999, 0] 0 2 = l1 ++ 0 :: l2 → l2 = []) ∧
    (∀ l1 j l2, calculate_draw_order [-9999, 0] 0 2 = l1 ++ j :: l2 → j ≠ 0 →
      (([-9999, 0] : List ℤ).getD j 0).toNat ∈ l2) ∧
    (∀ j, j < 2 → j ∈ calculate_draw_order [-9999, 0] 0 2) :=
  claim9_draw_order [-9999, 0] 0 2 (fun i => i) (by decide) (by decide)
    (by decide)

end Stitcher
